import Mathlib

/-
Verification development for the expjit3 expression compiler.

The repository contains two variants of the same tutorial JIT compiler:
 * `expjit3.c` — RISC-V RV64 variant: register-allocating code generator
   ("Code Generator B"), node pool with an integer `shared` count that starts
   at 1 on append and is incremented on every intern hit.
 * the x86 variant (unnamed source file) — stack/accumulator code generator
   ("Code Generator A"), `shared` is a 0/1 flag set to 1 on an intern hit,
   and a `saved` cache-slot pointer.

Both variants share the lexer, the recursive-descent parser and the
rewrite/intern engine `mk`.  Every definition below is a direct translation
of the corresponding C function; machine pointers `ast_t` become
`Option Nat` (pool indices, `none` for the null pointer), and the
recursive `mk` is given explicit fuel.
-/

set_option linter.unusedVariables false

namespace Expjit

/-- Node kinds: the token_t values INT, NAME, '+', '*' that `mk` is called with. -/
inductive Kind where
  | int
  | name
  | add
  | mul
deriving DecidableEq, Repr

/-- A pool node of the RISC-V variant (`struct node` in expjit3.c):
kind, left/right child pointers, literal value, share count, pinned register
(`alloc`) and assigned register (`reg`). -/
structure Node where
  kind : Kind
  l : Option Nat
  r : Option Nat
  intValue : Int
  shared : Nat
  alloc : Nat
  reg : Nat
deriving DecidableEq, Repr

/-- The node pool `nodes[]`; `next` is the list length. -/
abbrev Pool := List Node

/-- Dereference the `kind` field through a possibly-null node pointer. -/
def kindAt (p : Pool) : Option Nat → Option Kind
  | some i => (p[i]?).map Node.kind
  | none => none

/-- Dereference the `intValue` field (0 when the pointer is null/bad). -/
def valAt (p : Pool) : Option Nat → Int
  | some i => ((p[i]?).map Node.intValue).getD 0
  | none => 0

/-- Dereference the `l` field: `l->l` in the C source. -/
def childL (p : Pool) : Option Nat → Option Nat
  | some i => ((p[i]?).map Node.l).getD none
  | none => none

/-- Dereference the `r` field: `l->r` in the C source. -/
def childR (p : Pool) : Option Nat → Option Nat
  | some i => ((p[i]?).map Node.r).getD none
  | none => none

/-- The intern-lookup predicate of `mk`'s linear search:
`p->kind == kind && p->l == l && p->r == r && p->intValue == k`. -/
def matchNode (kind : Kind) (l r : Option Nat) (k : Int) (n : Node) : Bool :=
  n.kind == kind && n.l == l && n.r == r && n.intValue == k

/-- First index of the pool satisfying a predicate (the C `for` search loop). -/
def firstMatch (q : Node → Bool) : Pool → Option Nat
  | [] => none
  | n :: p => if q n then some 0 else (firstMatch q p).map (· + 1)

/-- Increment the share count of pool entry `i` (`p->shared++`). -/
def bumpShared (p : Pool) (i : Nat) : Pool :=
  match p[i]? with
  | some n => p.set i { n with shared := n.shared + 1 }
  | none => p

/-- Canonicalization of `mk`'s left operand: when the call is a binary node
whose left child is a literal, the operands are swapped so constants move
to the right. -/
def canonL (p : Pool) (kind : Kind) (l r : Option Nat) : Option Nat :=
  if (kind = Kind.add ∨ kind = Kind.mul) ∧ kindAt p l = some Kind.int then r else l

/-- Canonicalization of `mk`'s right operand. -/
def canonR (p : Pool) (kind : Kind) (l r : Option Nat) : Option Nat :=
  if (kind = Kind.add ∨ kind = Kind.mul) ∧ kindAt p l = some Kind.int then l else r

/-- The rewrite/intern engine `mk` of expjit3.c, with explicit fuel for the
recursive rewriting.  Returns the updated pool and the index of the
resulting node, or `none` when fuel runs out (the C function always
terminates; fuel only bounds the rewrite recursion depth). -/
def mk : Nat → Pool → Kind → Option Nat → Option Nat → Int → Option (Pool × Nat)
  | 0, _, _, _, _, _ => none
  | fuel + 1, p, kind, l0, r0, k =>
    -- move constants to the right
    let l := canonL p kind l0 r0
    let r := canonR p kind l0 r0
    match firstMatch (matchNode kind l r k) p with
    | some i => some (bumpShared p i, i)
    | none =>
      -- k1 + k2 -> [k1 + k2]
      if kind = Kind.add ∧ kindAt p l = some Kind.int ∧ kindAt p r = some Kind.int then
        mk fuel p Kind.int none none (valAt p l + valAt p r)
      -- k1 * k2 -> [k1 * k2]
      else if kind = Kind.mul ∧ kindAt p l = some Kind.int ∧ kindAt p r = some Kind.int then
        mk fuel p Kind.int none none (valAt p l * valAt p r)
      -- x * 0 -> 0
      else if kind = Kind.mul ∧ kindAt p r = some Kind.int ∧ valAt p r = 0 then
        mk fuel p Kind.int none none 0
      -- x * 1 -> x
      else if kind = Kind.mul ∧ kindAt p r = some Kind.int ∧ valAt p r = 1 then
        l.map fun i => (p, i)
      -- x + 0 -> x
      else if kind = Kind.add ∧ kindAt p r = some Kind.int ∧ valAt p r = 0 then
        l.map fun i => (p, i)
      -- x + x -> 2 * x
      else if kind = Kind.add ∧ r = l then
        match mk fuel p Kind.int none none 2 with
        | some (p2, two) => mk fuel p2 Kind.mul (some two) l 0
        | none => none
      -- (x + k1) + y -> x + (y + k1)
      else if kind = Kind.add ∧ kindAt p l = some Kind.add ∧
              kindAt p (childR p l) = some Kind.int then
        match mk fuel p Kind.add r (childR p l) 0 with
        | some (p2, inner) => mk fuel p2 Kind.add (childL p l) (some inner) 0
        | none => none
      -- (x * k1) * y -> x * (y * k1)
      else if kind = Kind.mul ∧ kindAt p l = some Kind.mul ∧
              kindAt p (childR p l) = some Kind.int then
        match mk fuel p Kind.mul r (childR p l) 0 with
        | some (p2, inner) => mk fuel p2 Kind.mul (childL p l) (some inner) 0
        | none => none
      -- (x + k2) * k1 -> x * k1 + k2 * k1
      else if kind = Kind.mul ∧ kindAt p r = some Kind.int ∧
              kindAt p l = some Kind.add ∧ kindAt p (childR p l) = some Kind.int then
        match mk fuel p Kind.mul (childL p l) r 0 with
        | some (p2, a) =>
          match mk fuel p2 Kind.mul (childR p l) r 0 with
          | some (p3, b) => mk fuel p3 Kind.add (some a) (some b) 0
          | none => none
        | none => none
      else
        some (p ++ [⟨kind, l, r, k, 1, 0, 0⟩], p.length)

/-- Tree-walking evaluation of a pool node under an environment, with fuel
(every well-formed node's children have strictly smaller indices, so fuel
`i + 1` evaluates node `i`). -/
def evalN (env : Int → Int) : Nat → Pool → Option Nat → Int
  | 0, _, _ => 0
  | _ + 1, _, none => 0
  | fuel + 1, p, some i =>
    match p[i]? with
    | none => 0
    | some n =>
      match n.kind with
      | Kind.int => n.intValue
      | Kind.name => env n.intValue
      | Kind.add => evalN env fuel p n.l + evalN env fuel p n.r
      | Kind.mul => evalN env fuel p n.l * evalN env fuel p n.r

/-- Evaluation of pool node `i`: enough fuel for any well-formed pool. -/
def evalA (p : Pool) (env : Int → Int) (i : Nat) : Int :=
  evalN env (i + 1) p (some i)

/-
The x86 variant.  Same `mk` algorithm, but `shared` is a 0/1 flag (`p->shared
= 1` on an intern hit, initialised to 0 on append) and each node carries a
`saved` cache-slot pointer for Code Generator A.
-/

/-- A pool node of the x86 variant (`struct node` in the unnamed source). -/
structure NodeX where
  kind : Kind
  l : Option Nat
  r : Option Nat
  intValue : Int
  shared : Nat
  saved : Option Nat
deriving DecidableEq, Repr

/-- The x86 variant's node pool. -/
abbrev PoolX := List NodeX

/-- Dereference `kind` in the x86 pool. -/
def kindAtX (p : PoolX) : Option Nat → Option Kind
  | some i => (p[i]?).map NodeX.kind
  | none => none

/-- Dereference `intValue` in the x86 pool. -/
def valAtX (p : PoolX) : Option Nat → Int
  | some i => ((p[i]?).map NodeX.intValue).getD 0
  | none => 0

/-- Dereference `l` in the x86 pool. -/
def childLX (p : PoolX) : Option Nat → Option Nat
  | some i => ((p[i]?).map NodeX.l).getD none
  | none => none

/-- Dereference `r` in the x86 pool. -/
def childRX (p : PoolX) : Option Nat → Option Nat
  | some i => ((p[i]?).map NodeX.r).getD none
  | none => none

/-- Intern-lookup predicate of the x86 `mk`. -/
def matchNodeX (kind : Kind) (l r : Option Nat) (k : Int) (n : NodeX) : Bool :=
  n.kind == kind && n.l == l && n.r == r && n.intValue == k

/-- First matching index in the x86 pool. -/
def firstMatchX (q : NodeX → Bool) : PoolX → Option Nat
  | [] => none
  | n :: p => if q n then some 0 else (firstMatchX q p).map (· + 1)

/-- Set the shared flag of x86 pool entry `i` (`p->shared = 1`). -/
def setSharedX (p : PoolX) (i : Nat) : PoolX :=
  match p[i]? with
  | some n => p.set i { n with shared := 1 }
  | none => p

/-- Canonicalization of the x86 `mk`'s left operand. -/
def canonLX (p : PoolX) (kind : Kind) (l r : Option Nat) : Option Nat :=
  if (kind = Kind.add ∨ kind = Kind.mul) ∧ kindAtX p l = some Kind.int then r else l

/-- Canonicalization of the x86 `mk`'s right operand. -/
def canonRX (p : PoolX) (kind : Kind) (l r : Option Nat) : Option Nat :=
  if (kind = Kind.add ∨ kind = Kind.mul) ∧ kindAtX p l = some Kind.int then l else r

/-- The rewrite/intern engine `mk` of the x86 variant. -/
def mkX : Nat → PoolX → Kind → Option Nat → Option Nat → Int → Option (PoolX × Nat)
  | 0, _, _, _, _, _ => none
  | fuel + 1, p, kind, l0, r0, k =>
    let l := canonLX p kind l0 r0
    let r := canonRX p kind l0 r0
    match firstMatchX (matchNodeX kind l r k) p with
    | some i => some (setSharedX p i, i)
    | none =>
      if kind = Kind.add ∧ kindAtX p l = some Kind.int ∧ kindAtX p r = some Kind.int then
        mkX fuel p Kind.int none none (valAtX p l + valAtX p r)
      else if kind = Kind.mul ∧ kindAtX p l = some Kind.int ∧ kindAtX p r = some Kind.int then
        mkX fuel p Kind.int none none (valAtX p l * valAtX p r)
      else if kind = Kind.mul ∧ kindAtX p r = some Kind.int ∧ valAtX p r = 0 then
        mkX fuel p Kind.int none none 0
      else if kind = Kind.mul ∧ kindAtX p r = some Kind.int ∧ valAtX p r = 1 then
        l.map fun i => (p, i)
      else if kind = Kind.add ∧ kindAtX p r = some Kind.int ∧ valAtX p r = 0 then
        l.map fun i => (p, i)
      else if kind = Kind.add ∧ r = l then
        match mkX fuel p Kind.int none none 2 with
        | some (p2, two) => mkX fuel p2 Kind.mul (some two) l 0
        | none => none
      else if kind = Kind.add ∧ kindAtX p l = some Kind.add ∧
              kindAtX p (childRX p l) = some Kind.int then
        match mkX fuel p Kind.add r (childRX p l) 0 with
        | some (p2, inner) => mkX fuel p2 Kind.add (childLX p l) (some inner) 0
        | none => none
      else if kind = Kind.mul ∧ kindAtX p l = some Kind.mul ∧
              kindAtX p (childRX p l) = some Kind.int then
        match mkX fuel p Kind.mul r (childRX p l) 0 with
        | some (p2, inner) => mkX fuel p2 Kind.mul (childLX p l) (some inner) 0
        | none => none
      else if kind = Kind.mul ∧ kindAtX p r = some Kind.int ∧
              kindAtX p l = some Kind.add ∧ kindAtX p (childRX p l) = some Kind.int then
        match mkX fuel p Kind.mul (childLX p l) r 0 with
        | some (p2, a) =>
          match mkX fuel p2 Kind.mul (childRX p l) r 0 with
          | some (p3, b) => mkX fuel p3 Kind.add (some a) (some b) 0
          | none => none
        | none => none
      else
        some (p ++ [⟨kind, l, r, k, 0, none⟩], p.length)

/-- Tree-walking evaluation in the x86 pool. -/
def evalNX (env : Int → Int) : Nat → PoolX → Option Nat → Int
  | 0, _, _ => 0
  | _ + 1, _, none => 0
  | fuel + 1, p, some i =>
    match p[i]? with
    | none => 0
    | some n =>
      match n.kind with
      | Kind.int => n.intValue
      | Kind.name => env n.intValue
      | Kind.add => evalNX env fuel p n.l + evalNX env fuel p n.r
      | Kind.mul => evalNX env fuel p n.l * evalNX env fuel p n.r

/-
Lexer (identical in both source files).  Token codes are the C token_t
values: END_OF_FILE = 0, ERROR = 1, one-character tokens are their own
character codes, INT = 256, NAME = 257.
-/

/-- Lexer state: source cursor `s`, `lookahead`, `intValue`, and the first
character of the current NAME token (`symbolValue[0]` is all the parser uses). -/
structure LexState where
  s : List Char
  lookahead : Nat
  intValue : Int
  symChar : Int
deriving DecidableEq, Repr

/-- Skip leading whitespace (the `while (isspace(*s)) ++s;` loop). -/
def skipWhite : List Char → List Char
  | c :: rest => if c.isWhitespace then skipWhite rest else c :: rest
  | [] => []

/-- Accumulate a decimal literal (`intValue = 10*intValue + *s++ - '0'`). -/
def lexInt (acc : Int) : List Char → Int × List Char
  | c :: rest =>
    if c.isDigit then lexInt (10 * acc + ((c.toNat : Int) - 48)) rest
    else (acc, c :: rest)
  | [] => (acc, [])

/-- Skip the remainder of a NAME token (`while (isalnum(*s)) ++s;`). -/
def skipAlnum : List Char → List Char
  | c :: rest => if c.isAlphanum then skipAlnum rest else c :: rest
  | [] => []

/-- The lexer `nexttoken`.  At the end of the source the C code reads the
terminating NUL, producing lookahead END_OF_FILE = 0. -/
def nexttoken (st : LexState) : LexState :=
  match skipWhite st.s with
  | [] => { st with s := [], lookahead := 0 }
  | c :: rest =>
    if c.isDigit then
      let (v, s2) := lexInt 0 (c :: rest)
      { st with s := s2, lookahead := 256, intValue := v }
    else if c.isAlpha then
      { st with s := skipAlnum (c :: rest), lookahead := 257, symChar := (c.toNat : Int) }
    else
      { st with s := rest, lookahead := c.toNat }

/-- The `match` helper: on an unexpected token set lookahead to ERROR = 1
without consuming input; otherwise advance. -/
def pmatch (expect : Nat) (st : LexState) : LexState :=
  if st.lookahead ≠ expect then { st with lookahead := 1 } else nexttoken st

/-
Recursive-descent parser (identical in both sources), threading the node
pool.  The parse value is `Option Nat`: `none` models the C variable `v`
that `pFactor` leaves uninitialised when no switch case matches, and is
propagated rather than handed to `mk`.  `mk` is run with fixed fuel 99,
ample for the rewrite depth of any input considered here.
-/

/-- Fuel handed to `mk` by the parser models. -/
def mkFuel : Nat := 99

mutual

/-- The parser's `pFactor` (RISC-V variant pool).  Note the C switch has no
default case: on any other token the result variable stays uninitialised. -/
def pFactor : Nat → LexState → Pool → LexState × Pool × Option Nat
  | 0, st, p => (st, p, none)
  | fuel + 1, st, p =>
    if st.lookahead = 40 then
      let st1 := pmatch 40 st
      let (st2, p2, v) := pExp fuel st1 p
      (pmatch 41 st2, p2, v)
    else if st.lookahead = 257 then
      match mk mkFuel p Kind.name none none st.symChar with
      | some (p2, i) => (pmatch 257 st, p2, some i)
      | none => (pmatch 257 st, p, none)
    else if st.lookahead = 256 then
      match mk mkFuel p Kind.int none none st.intValue with
      | some (p2, i) => (pmatch 256 st, p2, some i)
      | none => (pmatch 256 st, p, none)
    else
      (st, p, none)

/-- The `while (lookahead == '*')` loop of `pTerm`. -/
def pTermLoop : Nat → LexState → Pool → Option Nat → LexState × Pool × Option Nat
  | 0, st, p, v => (st, p, v)
  | fuel + 1, st, p, v =>
    if st.lookahead = 42 then
      let st1 := pmatch 42 st
      let (st2, p2, w) := pFactor fuel st1 p
      match v, w with
      | some a, some b =>
        match mk mkFuel p2 Kind.mul (some a) (some b) 0 with
        | some (p3, i) => pTermLoop fuel st2 p3 (some i)
        | none => pTermLoop fuel st2 p2 none
      | _, _ => pTermLoop fuel st2 p2 none
    else (st, p, v)

/-- The parser's `pTerm`. -/
def pTerm : Nat → LexState → Pool → LexState × Pool × Option Nat
  | 0, st, p => (st, p, none)
  | fuel + 1, st, p =>
    let (st1, p1, v) := pFactor fuel st p
    pTermLoop fuel st1 p1 v

/-- The `while (lookahead == '+')` loop of `pExp`. -/
def pExpLoop : Nat → LexState → Pool → Option Nat → LexState × Pool × Option Nat
  | 0, st, p, v => (st, p, v)
  | fuel + 1, st, p, v =>
    if st.lookahead = 43 then
      let st1 := pmatch 43 st
      let (st2, p2, w) := pTerm fuel st1 p
      match v, w with
      | some a, some b =>
        match mk mkFuel p2 Kind.add (some a) (some b) 0 with
        | some (p3, i) => pExpLoop fuel st2 p3 (some i)
        | none => pExpLoop fuel st2 p2 none
      | _, _ => pExpLoop fuel st2 p2 none
    else (st, p, v)

/-- The parser's `pExp`. -/
def pExp : Nat → LexState → Pool → LexState × Pool × Option Nat
  | 0, st, p => (st, p, none)
  | fuel + 1, st, p =>
    let (st1, p1, v) := pTerm fuel st p
    pExpLoop fuel st1 p1 v

end

mutual

/-- The parser's `pFactor` over the x86 pool. -/
def pFactorX : Nat → LexState → PoolX → LexState × PoolX × Option Nat
  | 0, st, p => (st, p, none)
  | fuel + 1, st, p =>
    if st.lookahead = 40 then
      let st1 := pmatch 40 st
      let (st2, p2, v) := pExpX fuel st1 p
      (pmatch 41 st2, p2, v)
    else if st.lookahead = 257 then
      match mkX mkFuel p Kind.name none none st.symChar with
      | some (p2, i) => (pmatch 257 st, p2, some i)
      | none => (pmatch 257 st, p, none)
    else if st.lookahead = 256 then
      match mkX mkFuel p Kind.int none none st.intValue with
      | some (p2, i) => (pmatch 256 st, p2, some i)
      | none => (pmatch 256 st, p, none)
    else
      (st, p, none)

/-- The `pTerm` loop over the x86 pool. -/
def pTermLoopX : Nat → LexState → PoolX → Option Nat → LexState × PoolX × Option Nat
  | 0, st, p, v => (st, p, v)
  | fuel + 1, st, p, v =>
    if st.lookahead = 42 then
      let st1 := pmatch 42 st
      let (st2, p2, w) := pFactorX fuel st1 p
      match v, w with
      | some a, some b =>
        match mkX mkFuel p2 Kind.mul (some a) (some b) 0 with
        | some (p3, i) => pTermLoopX fuel st2 p3 (some i)
        | none => pTermLoopX fuel st2 p2 none
      | _, _ => pTermLoopX fuel st2 p2 none
    else (st, p, v)

/-- The parser's `pTerm` over the x86 pool. -/
def pTermX : Nat → LexState → PoolX → LexState × PoolX × Option Nat
  | 0, st, p => (st, p, none)
  | fuel + 1, st, p =>
    let (st1, p1, v) := pFactorX fuel st p
    pTermLoopX fuel st1 p1 v

/-- The `pExp` loop over the x86 pool. -/
def pExpLoopX : Nat → LexState → PoolX → Option Nat → LexState × PoolX × Option Nat
  | 0, st, p, v => (st, p, v)
  | fuel + 1, st, p, v =>
    if st.lookahead = 43 then
      let st1 := pmatch 43 st
      let (st2, p2, w) := pTermX fuel st1 p
      match v, w with
      | some a, some b =>
        match mkX mkFuel p2 Kind.add (some a) (some b) 0 with
        | some (p3, i) => pExpLoopX fuel st2 p3 (some i)
        | none => pExpLoopX fuel st2 p2 none
      | _, _ => pExpLoopX fuel st2 p2 none
    else (st, p, v)

/-- The parser's `pExp` over the x86 pool. -/
def pExpX : Nat → LexState → PoolX → LexState × PoolX × Option Nat
  | 0, st, p => (st, p, none)
  | fuel + 1, st, p =>
    let (st1, p1, v) := pTermX fuel st p
    pExpLoopX fuel st1 p1 v

end

/-- Outcome of `main`'s parsing phase: final lookahead, pool, root. -/
structure ParseOut where
  look : Nat
  pool : Pool
  root : Option Nat
deriving DecidableEq, Repr

/-- Outcome of parsing in the x86 variant. -/
structure ParseOutX where
  look : Nat
  pool : PoolX
  root : Option Nat
deriving DecidableEq, Repr

/-- Parse a source string as `main` does (RISC-V variant):
`nexttoken(); res = pExp();` leaving the final lookahead for the
`if (lookahead)` syntax-error check. -/
def parseRV (src : String) : ParseOut :=
  let st0 := nexttoken { s := src.toList, lookahead := 0, intValue := 0, symChar := 0 }
  let (st1, p, v) := pExp 99 st0 []
  ⟨st1.lookahead, p, v⟩

/-- Parse a source string as `main` does (x86 variant). -/
def parseX (src : String) : ParseOutX :=
  let st0 := nexttoken { s := src.toList, lookahead := 0, intValue := 0, symChar := 0 }
  let (st1, p, v) := pExpX 99 st0 []
  ⟨st1.lookahead, p, v⟩

/-- The `unparse` printer of the RISC-V variant: parenthesised infix with a
`!` marker on a binary node whenever its `shared` field is nonzero. -/
def unparseN : Nat → Pool → Option Nat → String
  | 0, _, _ => ""
  | _ + 1, _, none => ""
  | fuel + 1, p, some i =>
    match p[i]? with
    | none => ""
    | some n =>
      match n.kind with
      | Kind.int => n.intValue.repr
      | Kind.name => String.singleton (Char.ofNat n.intValue.toNat)
      | Kind.add =>
        "(" ++ (if n.shared ≠ 0 then "!" else "") ++
          unparseN fuel p n.l ++ "+" ++ unparseN fuel p n.r ++ ")"
      | Kind.mul =>
        "(" ++ (if n.shared ≠ 0 then "!" else "") ++
          unparseN fuel p n.l ++ "*" ++ unparseN fuel p n.r ++ ")"

/-- The `unparse` printer of the x86 variant (same code over `PoolX`). -/
def unparseNX : Nat → PoolX → Option Nat → String
  | 0, _, _ => ""
  | _ + 1, _, none => ""
  | fuel + 1, p, some i =>
    match p[i]? with
    | none => ""
    | some n =>
      match n.kind with
      | Kind.int => n.intValue.repr
      | Kind.name => String.singleton (Char.ofNat n.intValue.toNat)
      | Kind.add =>
        "(" ++ (if n.shared ≠ 0 then "!" else "") ++
          unparseNX fuel p n.l ++ "+" ++ unparseNX fuel p n.r ++ ")"
      | Kind.mul =>
        "(" ++ (if n.shared ≠ 0 then "!" else "") ++
          unparseNX fuel p n.l ++ "*" ++ unparseNX fuel p n.r ++ ")"

/-
Code Generator B (expjit3.c, RISC-V RV64).  Instructions are modelled with
their encoded fields; crucially the load-immediate split keeps the raw
`intValue & 0xFFFFF000` / `intValue & 0xFFF` fields exactly as the C code
packs them into the instruction words, and execution applies the
sign-extension the hardware performs on those fields.
-/

/-- RISC-V instructions emitted by `codegen`: `lui rd, hifield`,
`addi rd, rs, lofield`, `lw rd, off(rs)`, `add rd, rs1, rs2`,
`mul rd, rs1, rs2`. -/
inductive InstrB where
  | lui (rd : Nat) (hi : Int)
  | addi (rd rs : Nat) (imm : Int)
  | lw (rd rs : Nat) (off : Int)
  | add (rd rs1 rs2 : Nat)
  | mul (rd rs1 rs2 : Nat)
deriving DecidableEq, Repr

/-- The a0 register (return value / environment pointer). -/
def reg_a0 : Nat := 10

/-- Initial contents of the free-register array
`{t0 .. s1, a1, ... t6}` (26 registers). -/
def regPoll0 : List Nat :=
  [5, 6, 7, 8, 9, 11, 12, 13, 14, 15, 16, 17, 18, 19, 20,
   21, 22, 23, 24, 25, 26, 27, 28, 29, 30, 31]

/-- Code Generator B state: the node pool (whose `shared`, `reg` fields it
mutates), the free-register array with its `next_free` cursor, and the
emitted code. -/
structure BState where
  pool : Pool
  regPoll : List Nat
  nextFree : Nat
  code : List InstrB
deriving Repr

/-- Overwrite the `reg` field of pool entry `t`. -/
def setReg (p : Pool) (t : Nat) (r : Nat) : Pool :=
  match p[t]? with
  | some n => p.set t { n with reg := r }
  | none => p

/-- The register allocator `alloc`: a pinned node (`t->alloc` nonzero) gets
its pinned register, otherwise the next free register is taken;
`assert(next_free < 26)` becomes an explicit error. -/
def allocB (st : BState) (t : Nat) : Except String BState :=
  match st.pool[t]? with
  | none => Except.error "bad node"
  | some n =>
    if n.alloc ≠ 0 then
      Except.ok { st with pool := setReg st.pool t n.alloc }
    else if st.nextFree < st.regPoll.length then
      let r := (st.regPoll[st.nextFree]?).getD 0
      Except.ok { st with pool := setReg st.pool t r, nextFree := st.nextFree + 1 }
    else
      Except.error "register exhaustion"

/-- Decrement the `shared` field of pool entry `t` (`t->shared--`). -/
def decShared (p : Pool) (t : Nat) : Pool :=
  match p[t]? with
  | some n => p.set t { n with shared := n.shared - 1 }
  | none => p

/-- The consumer `use`: returns the node's register, decrements `shared`,
and returns the register to the free array when the count reaches zero;
the two asserts become explicit errors. -/
def useB (st : BState) (t : Nat) : Except String (BState × Nat) :=
  match st.pool[t]? with
  | none => Except.error "bad node"
  | some n =>
    let r := n.reg
    if n.shared = 0 then Except.error "use of dead node"
    else
      let p2 := decShared st.pool t
      if n.shared - 1 = 0 then
        if st.nextFree = 0 then Except.error "free underflow"
        else
          let poll2 := st.regPoll.set (st.nextFree - 1) r
          Except.ok ({ st with pool := p2, regPoll := poll2, nextFree := st.nextFree - 1 }, r)
      else Except.ok ({ st with pool := p2 }, r)

/-- Append emitted instructions. -/
def emitB (st : BState) (is : List InstrB) : BState :=
  { st with code := st.code ++ is }

/-- The code generator `codegen` of expjit3.c.  A node whose `reg` is set is
not re-emitted; Int nodes use the lui/addi pair exactly as the C packs the
fields; Name nodes load from `intValue * 4` off the environment pointer in
a0; binary nodes compile left then right, `use` right then left, then
allocate the destination. -/
def codegenB : Nat → BState → Nat → Except String BState
  | 0, _, _ => Except.error "fuel"
  | fuel + 1, st, t =>
    match st.pool[t]? with
    | none => Except.error "bad node"
    | some n =>
      if n.reg ≠ 0 then Except.ok st
      else
        match n.kind with
        | Kind.int => do
          let st1 ← allocB st t
          let rd := ((st1.pool[t]?).map Node.reg).getD 0
          let hifield := Int.land n.intValue 0xFFFFF000
          let (st2, hi) :=
            if hifield ≠ 0 then (emitB st1 [InstrB.lui rd hifield], rd)
            else (st1, 0)
          pure (emitB st2 [InstrB.addi rd hi (Int.land n.intValue 0xFFF)])
        | Kind.name => do
          let st1 ← allocB st t
          let rd := ((st1.pool[t]?).map Node.reg).getD 0
          pure (emitB st1 [InstrB.lw rd reg_a0 (n.intValue * 4)])
        | Kind.add =>
          match n.l, n.r with
          | some li, some ri => do
            let st1 ← codegenB fuel st li
            let st2 ← codegenB fuel st1 ri
            let (st3, r) ← useB st2 ri
            let (st4, lreg) ← useB st3 li
            let st5 ← allocB st4 t
            let rd := ((st5.pool[t]?).map Node.reg).getD 0
            pure (emitB st5 [InstrB.add rd lreg r])
          | _, _ => Except.error "bad children"
        | Kind.mul =>
          match n.l, n.r with
          | some li, some ri => do
            let st1 ← codegenB fuel st li
            let st2 ← codegenB fuel st1 ri
            let (st3, r) ← useB st2 ri
            let (st4, lreg) ← useB st3 li
            let st5 ← allocB st4 t
            let rd := ((st5.pool[t]?).map Node.reg).getD 0
            pure (emitB st5 [InstrB.mul rd lreg r])
          | _, _ => Except.error "bad children"

/-- Sign extension of the 12-bit immediate field, as the ADDI hardware does. -/
def sext12 (v : Int) : Int := if 2048 ≤ v then v - 4096 else v

/-- Sign extension of the 32-bit value formed by the LUI immediate field. -/
def sext32 (v : Int) : Int := if 2147483648 ≤ v then v - 4294967296 else v

/-- Register-file read; x0 is hard-wired to zero. -/
def readReg (regs : Nat → Int) (r : Nat) : Int :=
  if r = 0 then 0 else regs r

/-- One RISC-V instruction step.  `lw` reads the environment table that a0
points to: offset `v*4` yields entry `v`. -/
def stepB (env : Int → Int) (regs : Nat → Int) : InstrB → (Nat → Int)
  | InstrB.lui rd hi => fun j => if j = rd then sext32 hi else regs j
  | InstrB.addi rd rs imm => fun j => if j = rd then readReg regs rs + sext12 imm else regs j
  | InstrB.lw rd _ off => fun j => if j = rd then env (off / 4) else regs j
  | InstrB.add rd rs1 rs2 =>
    fun j => if j = rd then readReg regs rs1 + readReg regs rs2 else regs j
  | InstrB.mul rd rs1 rs2 =>
    fun j => if j = rd then readReg regs rs1 * readReg regs rs2 else regs j

/-- Execute an instruction sequence from a zeroed register file and read a0,
the value `main` receives from the generated function. -/
def execB (env : Int → Int) (code : List InstrB) : Int :=
  readReg (code.foldl (stepB env) fun _ => 0) reg_a0

/-
Code Generator A (the x86 variant): accumulator/stack template expansion.
-/

/-- x86 instructions emitted by the generator: load immediate into eax, load
an environment cell into eax, push/pop around subtrees, the two combining
instructions, and the CSE slot load/store. -/
inductive InstrA where
  | movImm (v : Int)
  | movEnv (v : Int)
  | push
  | popB
  | addBA
  | imulBA
  | movFromSlot (s : Nat)
  | movToSlot (s : Nat)
deriving DecidableEq, Repr

/-- Code Generator A state: the x86 pool (whose `saved` fields it sets), the
`cse_p` slot cursor, and the emitted code. -/
structure AState where
  pool : PoolX
  csePtr : Nat
  code : List InstrA
deriving Repr

/-- Record the materialised slot of pool entry `t` (`t->saved = cse_p++`). -/
def setSaved (p : PoolX) (t : Nat) (s : Nat) : PoolX :=
  match p[t]? with
  | some n => p.set t { n with saved := some s }
  | none => p

/-- Append emitted instructions. -/
def emitA (st : AState) (is : List InstrA) : AState :=
  { st with code := st.code ++ is }

/-- The code generator `codegen` of the x86 variant: Int and Name nodes load
into eax; an already-materialised binary node reloads its slot; otherwise
right subtree, push, left subtree, pop, combine, and a store to a fresh
slot when the node is marked shared. -/
def codegenA : Nat → AState → Nat → Option AState
  | 0, _, _ => none
  | fuel + 1, st, t =>
    match st.pool[t]? with
    | none => none
    | some n =>
      match n.kind with
      | Kind.int => some (emitA st [InstrA.movImm n.intValue])
      | Kind.name => some (emitA st [InstrA.movEnv n.intValue])
      | _ =>
        match n.saved with
        | some s => some (emitA st [InstrA.movFromSlot s])
        | none =>
          match n.l, n.r with
          | some li, some ri => do
            let st1 ← codegenA fuel st ri
            let st2 := emitA st1 [InstrA.push]
            let st3 ← codegenA fuel st2 li
            let st4 := emitA st3 [InstrA.popB]
            let st5 := emitA st4 [if n.kind = Kind.add then InstrA.addBA else InstrA.imulBA]
            if n.shared ≠ 0 then
              some { pool := setSaved st5.pool t st5.csePtr,
                     csePtr := st5.csePtr + 1,
                     code := st5.code ++ [InstrA.movToSlot st5.csePtr] }
            else
              some st5
          | _, _ => none

/-- x86 machine state for executing Generator A's output. -/
structure MachA where
  eax : Int
  ebx : Int
  stack : List Int
  slots : Nat → Int

/-- One x86 instruction step. -/
def stepA (env : Int → Int) (m : MachA) : InstrA → MachA
  | InstrA.movImm v => { m with eax := v }
  | InstrA.movEnv v => { m with eax := env v }
  | InstrA.push => { m with stack := m.eax :: m.stack }
  | InstrA.popB =>
    match m.stack with
    | b :: rest => { m with ebx := b, stack := rest }
    | [] => { m with ebx := 0, stack := [] }
  | InstrA.addBA => { m with eax := m.eax + m.ebx }
  | InstrA.imulBA => { m with eax := m.eax * m.ebx }
  | InstrA.movFromSlot s => { m with eax := m.slots s }
  | InstrA.movToSlot s =>
    { m with slots := fun j => if j = s then m.eax else m.slots j }

/-- Execute an instruction sequence and read eax, the return value. -/
def execA (env : Int → Int) (code : List InstrA) : Int :=
  (code.foldl (stepA env) ⟨0, 0, [], fun _ => 0⟩).eax

/-
End-to-end pipelines mirroring the two `main` functions, and the default
environment `env[256] = { ['x'] = 2, ['y'] = 3 }`.
-/

/-- The default environment: x maps to 2, y to 3, all else 0. -/
def env0 : Int → Int :=
  fun v => if v = 120 then 2 else if v = 121 then 3 else 0

/-- Pin the root to a0 (`res->alloc = reg_a0` in main). -/
def pinRoot (p : Pool) (t : Nat) : Pool :=
  match p[t]? with
  | some n => p.set t { n with alloc := reg_a0 }
  | none => p

/-- Full RISC-V pipeline: parse, pin the root to a0, generate code, execute
the code under `env`.  `none` on a syntax error, generator failure or fuel
exhaustion. -/
def runB (src : String) (env : Int → Int) : Option Int :=
  let o := parseRV src
  if o.look ≠ 0 then none
  else
    match o.root with
    | none => none
    | some t =>
      match codegenB 99 ⟨pinRoot o.pool t, regPoll0, 0, []⟩ t with
      | Except.ok st => some (execB env st.code)
      | Except.error _ => none

/-- Full x86 pipeline: parse, generate code, execute under `env`. -/
def runA (src : String) (env : Int → Int) : Option Int :=
  let o := parseX src
  if o.look ≠ 0 then none
  else
    match o.root with
    | none => none
    | some t =>
      match codegenA 99 ⟨o.pool, 0, []⟩ t with
      | some st => some (execA env st.code)
      | none => none

/-- Reference semantics: parse and tree-walk the final AST under `env`. -/
def runEval (src : String) (env : Int → Int) : Option Int :=
  let o := parseRV src
  if o.look ≠ 0 then none
  else
    match o.root with
    | none => none
    | some t => some (evalA o.pool env t)

/-
Observations on the final AST: reachability from the root and the number of
distinct AST edges referencing a node, used to check `share_count` claims.
-/

/-- All pool indices reachable from a node (with repetitions). -/
def reachListN : Nat → Pool → Option Nat → List Nat
  | 0, _, _ => []
  | _ + 1, _, none => []
  | fuel + 1, p, some i =>
    match p[i]? with
    | none => [i]
    | some n => i :: (reachListN fuel p n.l ++ reachListN fuel p n.r)

/-- The distinct pool indices reachable from `root`. -/
def reachSet (p : Pool) (root : Nat) : List Nat :=
  (reachListN (root + 1) p (some root)).dedup

/-- Number of distinct edges of the final AST that reference node `tgt`:
each reachable node contributes its `l` and `r` fields. -/
def edgeCount (p : Pool) (root tgt : Nat) : Nat :=
  ((reachSet p root).map fun i =>
    match p[i]? with
    | some n => (if n.l = some tgt then 1 else 0) + (if n.r = some tgt then 1 else 0)
    | none => 0).sum

/-- The `shared` count of pool entry `i` (0 if out of range). -/
def sharedAt (p : Pool) (i : Nat) : Nat :=
  ((p[i]?).map Node.shared).getD 0

/-- The `shared` flag of an x86 pool entry. -/
def sharedAtX (p : PoolX) (i : Nat) : Nat :=
  ((p[i]?).map NodeX.shared).getD 0

/-
Well-formedness of a pool, as established by building every node through
`mk`: children precede their parents, binary nodes are canonicalized
(no literal left child), no appended node is a redex of any rewrite rule
(such a node would have been rewritten rather than appended), interning
keeps the pool duplicate-free, and every share count is at least 1.
-/

/-- Shape equality: the four fields `mk`'s intern lookup compares. -/
def shapeEqB (m n : Node) : Bool :=
  m.kind == n.kind && m.l == n.l && m.r == n.r && m.intValue == n.intValue

/-- Shape well-formedness of a single node at index `i` (ignores `shared`). -/
def wfShape (p : Pool) (i : Nat) (n : Node) : Bool :=
  match n.kind with
  | Kind.int => n.l == none && n.r == none
  | Kind.name => n.l == none && n.r == none
  | Kind.add =>
    match n.l, n.r with
    | some li, some ri =>
      decide (li < i) && decide (ri < i) &&
      !(kindAt p (some li) == some Kind.int) &&
      !(kindAt p (some ri) == some Kind.int && valAt p (some ri) == 0) &&
      !(li == ri) &&
      !(kindAt p (some li) == some Kind.add &&
        kindAt p (childR p (some li)) == some Kind.int)
    | _, _ => false
  | Kind.mul =>
    match n.l, n.r with
    | some li, some ri =>
      decide (li < i) && decide (ri < i) &&
      !(kindAt p (some li) == some Kind.int) &&
      !(kindAt p (some ri) == some Kind.int &&
        (valAt p (some ri) == 0 || valAt p (some ri) == 1)) &&
      !(kindAt p (some li) == some Kind.mul &&
        kindAt p (childR p (some li)) == some Kind.int) &&
      !(kindAt p (some ri) == some Kind.int &&
        kindAt p (some li) == some Kind.add &&
        kindAt p (childR p (some li)) == some Kind.int)
    | _, _ => false

/-- Well-formedness of a single node: a positive share count plus the shape
clauses. -/
def wfNode (p : Pool) (i : Nat) (n : Node) : Bool :=
  decide (1 ≤ n.shared) && wfShape p i n

/-- Well-formedness of pool entry `i` (vacuous out of range). -/
def wfEntry (p : Pool) (i : Nat) : Bool :=
  match p[i]? with
  | some n => wfNode p i n
  | none => true

/-- No two pool entries share a shape (interning). -/
def wfDup (p : Pool) : Bool :=
  (List.range p.length).all fun i =>
    (List.range i).all fun j =>
      match p[i]?, p[j]? with
      | some m, some n => !(shapeEqB m n)
      | _, _ => true

/-- Well-formedness of the whole pool. -/
def wf (p : Pool) : Bool :=
  ((List.range p.length).all fun i => wfEntry p i) && wfDup p

/-- The pool of the x86 variant after parsing "x+1": Name x, Int 1,
Add(x, 1); all shared flags are 0. -/
def c2p1 : PoolX := (parseX "x+1").pool

/-- The pool after building the tuple of "x+1" once more (one intern hit). -/
def c2p2 : PoolX := ((mkX 9 c2p1 Kind.add (some 0) (some 1) 0).map Prod.fst).getD []

/-- The pool after building the same tuple a third time (two intern hits). -/
def c2p3 : PoolX := ((mkX 9 c2p2 Kind.add (some 0) (some 1) 0).map Prod.fst).getD []

/-- A small pool used to instantiate the universal theorems: Name x, Int 0,
Int 1, exactly as interning would store them. -/
def wpool4 : Pool :=
  [⟨Kind.name, none, none, 120, 1, 0, 0⟩,
   ⟨Kind.int, none, none, 0, 1, 0, 0⟩,
   ⟨Kind.int, none, none, 1, 1, 0, 0⟩]

/-- A two-leaf pool (Name x, Name y) for value-preservation witnesses. -/
def wpool2 : Pool :=
  [⟨Kind.name, none, none, 120, 1, 0, 0⟩, ⟨Kind.name, none, none, 121, 1, 0, 0⟩]

/-- The pool after building Add(x, y) on `wpool2`. -/
def wpool2add : Pool :=
  ((mk 9 wpool2 Kind.add (some 0) (some 1) 0).map Prod.fst).getD []

/-- The pool after building Mul(x, y) on `wpool2`. -/
def wpool2mul : Pool :=
  ((mk 9 wpool2 Kind.mul (some 0) (some 1) 0).map Prod.fst).getD []

/-
Semantic notions used by the universal theorems about `mk`.
-/

/-- The shape of a node: the four fields the intern lookup compares. -/
def shapeOf (n : Node) : Kind × Option Nat × Option Nat × Int :=
  (n.kind, n.l, n.r, n.intValue)

/-- Pool `q` extends pool `p`: it is at least as long and agrees with `p` on
the shapes of all of `p`'s entries (share counts and codegen fields may
differ; `mk` only ever appends nodes and bumps share counts). -/
def shapesLE (p q : Pool) : Prop :=
  p.length ≤ q.length ∧
  ∀ j, j < p.length → (q[j]?).map shapeOf = (p[j]?).map shapeOf

/-- Every child pointer strictly precedes its parent index. -/
abbrev childrenLT (p : Pool) : Prop :=
  ∀ (j : Nat) (n : Node), p[j]? = some n →
    (∀ li, n.l = some li → li < j) ∧ (∀ ri, n.r = some ri → ri < j)

/-- Evaluation through a possibly-null node pointer. -/
def evalO (p : Pool) (env : Int → Int) : Option Nat → Int
  | some i => evalA p env i
  | none => 0

/-- The intended value of a `mk(kind, l, r, k)` request: the literal, the
environment slot, or the sum/product of the operand values. -/
def semOf (p : Pool) (env : Int → Int) (kind : Kind) (l r : Option Nat) (k : Int) : Int :=
  match kind with
  | Kind.int => k
  | Kind.name => env k
  | Kind.add => evalO p env l + evalO p env r
  | Kind.mul => evalO p env l * evalO p env r

/-- Validity of the arguments of a `mk` call, as the parser issues them:
leaves carry null children, binary nodes carry valid pool indices. -/
def argsOk (p : Pool) (kind : Kind) (l r : Option Nat) : Prop :=
  match kind with
  | Kind.int => l = none ∧ r = none
  | Kind.name => l = none ∧ r = none
  | _ => (∃ li, l = some li ∧ li < p.length) ∧ (∃ ri, r = some ri ∧ ri < p.length)

/-- Every register in Code Generator B's free array is a real (nonzero)
register — true of the initial array `reg_poll` and an invariant of the
generator. -/
def pollPos (st : BState) : Prop := ∀ x ∈ st.regPoll, x ≠ 0

/-- Code Generator B's pool discipline: entries persist (same length),
`alloc` fields are never rewritten, and a node that already holds a
register keeps exactly that register — once compiled, always compiled. -/
def regsPreserved (p q : Pool) : Prop :=
  q.length = p.length ∧
  ∀ (j : Nat) (m : Node), p[j]? = some m →
    ∃ m2, q[j]? = some m2 ∧ m2.alloc = m.alloc ∧
      (m.reg ≠ 0 → m2.reg = m.reg)

/-- A concrete already-compiled node (its `reg` holds t0+2 = 7). -/
def c7nB : Node := ⟨Kind.int, none, none, 5, 1, 0, 7⟩

/-- A concrete Generator B state holding `c7nB`. -/
def c7stB : BState := ⟨[c7nB], regPoll0, 0, []⟩

/-- A concrete materialised shared Add node (its `saved` slot is 3). -/
def c7nA : NodeX := ⟨Kind.add, some 0, some 0, 0, 1, some 3⟩

/-- A concrete Generator A state holding `c7nA`. -/
def c7stA : AState := ⟨[c7nA], 4, []⟩

end Expjit

namespace Expjit

/-
Supporting lemmas: the linear intern search, shape stability of pool
updates, and evaluation.
-/

theorem firstMatch_some {q : Node → Bool} :
    ∀ {p : Pool} {i : Nat}, firstMatch q p = some i →
      ∃ n, p[i]? = some n ∧ q n = true := by
  intro p
  induction p with
  | nil => intro i h; simp [firstMatch] at h
  | cons a as ih =>
    intro i h
    by_cases ha : q a
    · simp [firstMatch, ha] at h
      subst h
      exact ⟨a, by simp, ha⟩
    · simp [firstMatch, ha] at h
      cases hm : firstMatch q as with
      | none => rw [hm] at h; simp at h
      | some j =>
        rw [hm] at h
        simp at h
        obtain ⟨n, hn, hq⟩ := ih hm
        subst h
        exact ⟨n, by simpa [List.getElem?_cons_succ] using hn, hq⟩

theorem firstMatch_none {q : Node → Bool} :
    ∀ {p : Pool}, firstMatch q p = none → ∀ n ∈ p, q n = false := by
  intro p
  induction p with
  | nil => intro _ n hn; simp at hn
  | cons a as ih =>
    intro h n hn
    by_cases ha : q a
    · simp [firstMatch, ha] at h
    · simp [firstMatch, ha] at h
      rcases List.mem_cons.mp hn with rfl | hmem
      · simpa using ha
      · exact ih h n hmem

theorem shapesLE_refl (p : Pool) : shapesLE p p :=
  ⟨le_refl _, fun _ _ => rfl⟩

theorem shapesLE_trans {p q s : Pool} (h1 : shapesLE p q) (h2 : shapesLE q s) :
    shapesLE p s := by
  refine ⟨le_trans h1.1 h2.1, fun j hj => ?_⟩
  rw [h2.2 j (lt_of_lt_of_le hj h1.1), h1.2 j hj]

theorem bumpShared_length (p : Pool) (i : Nat) :
    (bumpShared p i).length = p.length := by
  unfold bumpShared
  cases p[i]? <;> simp

theorem bumpShared_get? (p : Pool) (i j : Nat) :
    ((bumpShared p i)[j]?).map shapeOf = (p[j]?).map shapeOf := by
  unfold bumpShared
  cases hg : p[i]? with
  | none => rfl
  | some n =>
    rw [List.getElem?_set]
    by_cases hij : i = j
    · subst hij
      have hlt : i < p.length := (List.getElem?_eq_some.mp hg).1
      simp [hlt, hg, shapeOf]
    · simp [hij]

theorem shapesLE_bumpShared (p : Pool) (i : Nat) : shapesLE p (bumpShared p i) :=
  ⟨le_of_eq (bumpShared_length p i).symm, fun j _ => bumpShared_get? p i j⟩

theorem shapesLE_append (p : Pool) (n : Node) : shapesLE p (p ++ [n]) := by
  refine ⟨by simp, fun j hj => ?_⟩
  rw [List.getElem?_append_left hj]

theorem get?_lt_of_shapesLE {p q : Pool} (h : shapesLE p q) {j : Nat}
    (hj : j < p.length) :
    ∃ m n, q[j]? = some m ∧ p[j]? = some n ∧ shapeOf m = shapeOf n := by
  have h2 := h.2 j hj
  cases hp : p[j]? with
  | none => exact absurd (List.getElem?_eq_none_iff.mp hp) (by omega)
  | some n =>
    cases hq : q[j]? with
    | none => rw [hp, hq] at h2; simp at h2
    | some m =>
      rw [hp, hq] at h2
      simp at h2
      exact ⟨m, n, rfl, rfl, h2⟩

theorem kindAt_of_shapesLE {p q : Pool} (h : shapesLE p q) {j : Nat}
    (hj : j < p.length) : kindAt q (some j) = kindAt p (some j) := by
  obtain ⟨m, n, hq, hp, hs⟩ := get?_lt_of_shapesLE h hj
  have : m.kind = n.kind := congrArg Prod.fst hs
  simp [kindAt, hq, hp, this]

theorem valAt_of_shapesLE {p q : Pool} (h : shapesLE p q) {j : Nat}
    (hj : j < p.length) : valAt q (some j) = valAt p (some j) := by
  obtain ⟨m, n, hq, hp, hs⟩ := get?_lt_of_shapesLE h hj
  have : m.intValue = n.intValue := congrArg (fun s => s.2.2.2) hs
  simp [valAt, hq, hp, this]

theorem childL_of_shapesLE {p q : Pool} (h : shapesLE p q) {j : Nat}
    (hj : j < p.length) : childL q (some j) = childL p (some j) := by
  obtain ⟨m, n, hq, hp, hs⟩ := get?_lt_of_shapesLE h hj
  have : m.l = n.l := congrArg (fun s => s.2.1) hs
  simp [childL, hq, hp, this]

theorem childR_of_shapesLE {p q : Pool} (h : shapesLE p q) {j : Nat}
    (hj : j < p.length) : childR q (some j) = childR p (some j) := by
  obtain ⟨m, n, hq, hp, hs⟩ := get?_lt_of_shapesLE h hj
  have : m.r = n.r := congrArg (fun s => s.2.2.1) hs
  simp [childR, hq, hp, this]

theorem evalN_none (env : Int → Int) (fuel : Nat) (p : Pool) :
    evalN env fuel p none = 0 := by
  cases fuel <;> rfl

theorem evalN_of_shapesLE {p q : Pool} (hc : childrenLT p) (h : shapesLE p q)
    (env : Int → Int) :
    ∀ fuel j, j < p.length → evalN env fuel q (some j) = evalN env fuel p (some j) := by
  intro fuel
  induction fuel with
  | zero => intro j _; rfl
  | succ fuel ih =>
    intro j hj
    obtain ⟨m, n, hq, hp, hs⟩ := get?_lt_of_shapesLE h hj
    obtain ⟨hkind, hl, hr, hv⟩ :
        m.kind = n.kind ∧ m.l = n.l ∧ m.r = n.r ∧ m.intValue = n.intValue := by
      refine ⟨congrArg Prod.fst hs, congrArg (fun s => s.2.1) hs,
        congrArg (fun s => s.2.2.1) hs, congrArg (fun s => s.2.2.2) hs⟩
    have hrec : ∀ o : Option Nat, (∀ t, o = some t → t < j) →
        evalN env fuel q o = evalN env fuel p o := by
      intro o ho
      cases o with
      | none => rw [evalN_none, evalN_none]
      | some t => exact ih t (lt_trans (ho t rfl) hj)
    have hcl := (hc j n hp).1
    have hcr := (hc j n hp).2
    cases hk : n.kind with
    | int => simp [evalN, hq, hp, hkind, hk, hv]
    | name => simp [evalN, hq, hp, hkind, hk, hv]
    | add =>
      simp only [evalN, hq, hp, hkind, hk, hl, hr]
      rw [hrec n.l hcl, hrec n.r hcr]
    | mul =>
      simp only [evalN, hq, hp, hkind, hk, hl, hr]
      rw [hrec n.l hcl, hrec n.r hcr]

theorem evalN_fuel {p : Pool} (hc : childrenLT p) (env : Int → Int) :
    ∀ j fuel fuel2, j < fuel → j < fuel2 →
      evalN env fuel p (some j) = evalN env fuel2 p (some j) := by
  intro j
  induction j using Nat.strong_induction_on with
  | _ j ih =>
    intro fuel fuel2 h1 h2
    cases fuel with
    | zero => omega
    | succ f =>
      cases fuel2 with
      | zero => omega
      | succ g =>
        cases hp : p[j]? with
        | none => simp [evalN, hp]
        | some n =>
          have hcl := (hc j n hp).1
          have hcr := (hc j n hp).2
          have hrec : ∀ o : Option Nat, (∀ t, o = some t → t < j) →
              evalN env f p o = evalN env g p o := by
            intro o ho
            cases o with
            | none => rw [evalN_none, evalN_none]
            | some t =>
              have ht := ho t rfl
              calc evalN env f p (some t) = evalN env (t + 1) p (some t) :=
                     ih t ht f (t + 1) (by omega) (by omega)
                _ = evalN env g p (some t) :=
                     (ih t ht g (t + 1) (by omega) (by omega)).symm
          cases hk : n.kind with
          | int => simp [evalN, hp, hk]
          | name => simp [evalN, hp, hk]
          | add =>
            simp only [evalN, hp, hk]
            rw [hrec n.l hcl, hrec n.r hcr]
          | mul =>
            simp only [evalN, hp, hk]
            rw [hrec n.l hcl, hrec n.r hcr]

/-
Lemmas about the well-formedness predicate.
-/

theorem shapeOf_eq_iff {m n : Node} :
    shapeOf m = shapeOf n ↔
      m.kind = n.kind ∧ m.l = n.l ∧ m.r = n.r ∧ m.intValue = n.intValue := by
  unfold shapeOf
  simp only [Prod.mk.injEq]

theorem shapeEqB_true_iff {m n : Node} :
    shapeEqB m n = true ↔ shapeOf m = shapeOf n := by
  unfold shapeEqB
  rw [shapeOf_eq_iff]
  simp [Bool.and_eq_true, beq_iff_eq, and_assoc]

theorem wf_all {p : Pool} (h : wf p = true) {i : Nat} {n : Node}
    (hg : p[i]? = some n) : wfNode p i n = true := by
  have hi : i < p.length := (List.getElem?_eq_some.mp hg).1
  unfold wf at h
  rw [Bool.and_eq_true] at h
  have h2 := (List.all_eq_true.mp h.1) i (List.mem_range.mpr hi)
  unfold wfEntry at h2
  rw [hg] at h2
  exact h2

theorem wf_sharedPos {p : Pool} (h : wf p = true) {i : Nat} {n : Node}
    (hg : p[i]? = some n) : 1 ≤ n.shared := by
  have h2 := wf_all h hg
  unfold wfNode at h2
  rw [Bool.and_eq_true] at h2
  exact of_decide_eq_true h2.1

theorem wf_shape {p : Pool} (h : wf p = true) {i : Nat} {n : Node}
    (hg : p[i]? = some n) : wfShape p i n = true := by
  have h2 := wf_all h hg
  unfold wfNode at h2
  rw [Bool.and_eq_true] at h2
  exact h2.2

theorem wf_dup {p : Pool} (h : wf p = true) {i j : Nat} {m n : Node}
    (hi : p[i]? = some m) (hj : p[j]? = some n) (hij : j < i) :
    shapeEqB m n = false := by
  have hi2 : i < p.length := (List.getElem?_eq_some.mp hi).1
  unfold wf at h
  rw [Bool.and_eq_true] at h
  have h2 := (List.all_eq_true.mp h.2) i (List.mem_range.mpr hi2)
  have h3 := (List.all_eq_true.mp h2) j (List.mem_range.mpr hij)
  rw [hi, hj] at h3
  simpa using h3

theorem wf_unique {p : Pool} (h : wf p = true) {i j : Nat} {m n : Node}
    (hi : p[i]? = some m) (hj : p[j]? = some n) (hs : shapeOf m = shapeOf n) :
    i = j := by
  rcases Nat.lt_trichotomy i j with hlt | heq | hgt
  · have hd := wf_dup h hj hi hlt
    have hs2 : shapeEqB n m = true := shapeEqB_true_iff.mpr hs.symm
    exact absurd hs2 (by simp [hd])
  · exact heq
  · have hd := wf_dup h hi hj hgt
    have hs2 : shapeEqB m n = true := shapeEqB_true_iff.mpr hs
    exact absurd hs2 (by simp [hd])

theorem wfShape_add_elim {p : Pool} {i : Nat} {n : Node}
    (h : wfShape p i n = true) (hk : n.kind = Kind.add) :
    ∃ li ri, n.l = some li ∧ n.r = some ri ∧ li < i ∧ ri < i ∧
      kindAt p (some li) ≠ some Kind.int ∧
      ¬(kindAt p (some ri) = some Kind.int ∧ valAt p (some ri) = 0) ∧
      li ≠ ri ∧
      ¬(kindAt p (some li) = some Kind.add ∧
        kindAt p (childR p (some li)) = some Kind.int) := by
  unfold wfShape at h
  rw [hk] at h
  cases hl : n.l with
  | none => rw [hl] at h; simp at h
  | some li =>
    cases hr : n.r with
    | none => rw [hl, hr] at h; simp at h
    | some ri =>
      rw [hl, hr] at h
      simp only [Bool.and_eq_true, Bool.not_eq_true', decide_eq_true_eq,
        Bool.and_eq_false_iff, beq_eq_false_iff_ne, ne_eq, beq_iff_eq] at h
      refine ⟨li, ri, rfl, rfl, ?_, ?_, ?_, ?_, ?_⟩ <;> tauto

theorem wfShape_mul_elim {p : Pool} {i : Nat} {n : Node}
    (h : wfShape p i n = true) (hk : n.kind = Kind.mul) :
    ∃ li ri, n.l = some li ∧ n.r = some ri ∧ li < i ∧ ri < i ∧
      kindAt p (some li) ≠ some Kind.int ∧
      ¬(kindAt p (some ri) = some Kind.int ∧
        (valAt p (some ri) = 0 ∨ valAt p (some ri) = 1)) ∧
      ¬(kindAt p (some li) = some Kind.mul ∧
        kindAt p (childR p (some li)) = some Kind.int) ∧
      ¬(kindAt p (some ri) = some Kind.int ∧ kindAt p (some li) = some Kind.add ∧
        kindAt p (childR p (some li)) = some Kind.int) := by
  unfold wfShape at h
  rw [hk] at h
  cases hl : n.l with
  | none => rw [hl] at h; simp at h
  | some li =>
    cases hr : n.r with
    | none => rw [hl, hr] at h; simp at h
    | some ri =>
      rw [hl, hr] at h
      simp only [Bool.and_eq_true, Bool.not_eq_true', decide_eq_true_eq,
        Bool.and_eq_false_iff, Bool.or_eq_false_iff, beq_eq_false_iff_ne, ne_eq,
        beq_iff_eq] at h
      refine ⟨li, ri, rfl, rfl, ?_, ?_, ?_, ?_, ?_⟩ <;> tauto

theorem wfShape_leaf_elim {p : Pool} {i : Nat} {n : Node}
    (h : wfShape p i n = true) (hk : n.kind = Kind.int ∨ n.kind = Kind.name) :
    n.l = none ∧ n.r = none := by
  unfold wfShape at h
  rcases hk with hk | hk <;> rw [hk] at h <;>
    simp only [Bool.and_eq_true, beq_iff_eq] at h <;> exact h

theorem childrenLT_of_wf {p : Pool} (h : wf p = true) : childrenLT p := by
  intro j n hg
  have hs := wf_shape h hg
  cases hk : n.kind with
  | int =>
    obtain ⟨hl, hr⟩ := wfShape_leaf_elim hs (Or.inl hk)
    constructor
    · intro li hli
      rw [hl] at hli
      cases hli
    · intro ri hri
      rw [hr] at hri
      cases hri
  | name =>
    obtain ⟨hl, hr⟩ := wfShape_leaf_elim hs (Or.inr hk)
    constructor
    · intro li hli
      rw [hl] at hli
      cases hli
    · intro ri hri
      rw [hr] at hri
      cases hri
  | add =>
    obtain ⟨li, ri, hl, hr, hli, hri, _⟩ := wfShape_add_elim hs hk
    constructor
    · intro x hx
      rw [hl] at hx
      cases hx
      exact hli
    · intro x hx
      rw [hr] at hx
      cases hx
      exact hri
  | mul =>
    obtain ⟨li, ri, hl, hr, hli, hri, _⟩ := wfShape_mul_elim hs hk
    constructor
    · intro x hx
      rw [hl] at hx
      cases hx
      exact hli
    · intro x hx
      rw [hr] at hx
      cases hx
      exact hri

theorem bumpShared_getElem (p : Pool) (i j : Nat) :
    (bumpShared p i)[j]? =
      if i = j then (p[j]?).map (fun n => { n with shared := n.shared + 1 })
      else p[j]? := by
  unfold bumpShared
  cases hg : p[i]? with
  | none =>
    by_cases hij : i = j
    · subst hij
      rw [hg]
      simp
    · simp [hij]
  | some n =>
    rw [List.getElem?_set]
    by_cases hij : i = j
    · subst hij
      have hlt : i < p.length := (List.getElem?_eq_some.mp hg).1
      simp [hlt, hg]
    · simp [hij]

theorem kindAt_of_shapeAgree {p q : Pool} {t : Nat}
    (h : (q[t]?).map shapeOf = (p[t]?).map shapeOf) :
    kindAt q (some t) = kindAt p (some t) := by
  simp only [kindAt]
  cases hq : q[t]? with
  | none =>
    cases hp : p[t]? with
    | none => rfl
    | some n => rw [hq, hp] at h; simp at h
  | some m =>
    cases hp : p[t]? with
    | none => rw [hq, hp] at h; simp at h
    | some n =>
      rw [hq, hp] at h
      simp only [Option.map_some'] at h ⊢
      exact congrArg _ (shapeOf_eq_iff.mp (by simpa using h)).1

theorem valAt_of_shapeAgree {p q : Pool} {t : Nat}
    (h : (q[t]?).map shapeOf = (p[t]?).map shapeOf) :
    valAt q (some t) = valAt p (some t) := by
  simp only [valAt]
  cases hq : q[t]? with
  | none =>
    cases hp : p[t]? with
    | none => rfl
    | some n => rw [hq, hp] at h; simp at h
  | some m =>
    cases hp : p[t]? with
    | none => rw [hq, hp] at h; simp at h
    | some n =>
      rw [hq, hp] at h
      simp only [Option.map_some', Option.getD_some] at h ⊢
      exact (shapeOf_eq_iff.mp (by simpa using h)).2.2.2

theorem childL_of_shapeAgree {p q : Pool} {t : Nat}
    (h : (q[t]?).map shapeOf = (p[t]?).map shapeOf) :
    childL q (some t) = childL p (some t) := by
  simp only [childL]
  cases hq : q[t]? with
  | none =>
    cases hp : p[t]? with
    | none => rfl
    | some n => rw [hq, hp] at h; simp at h
  | some m =>
    cases hp : p[t]? with
    | none => rw [hq, hp] at h; simp at h
    | some n =>
      rw [hq, hp] at h
      simp only [Option.map_some', Option.getD_some] at h ⊢
      exact (shapeOf_eq_iff.mp (by simpa using h)).2.1

theorem childR_of_shapeAgree {p q : Pool} {t : Nat}
    (h : (q[t]?).map shapeOf = (p[t]?).map shapeOf) :
    childR q (some t) = childR p (some t) := by
  simp only [childR]
  cases hq : q[t]? with
  | none =>
    cases hp : p[t]? with
    | none => rfl
    | some n => rw [hq, hp] at h; simp at h
  | some m =>
    cases hp : p[t]? with
    | none => rw [hq, hp] at h; simp at h
    | some n =>
      rw [hq, hp] at h
      simp only [Option.map_some', Option.getD_some] at h ⊢
      exact (shapeOf_eq_iff.mp (by simpa using h)).2.2.1

theorem wfShape_add_intro {p : Pool} {i : Nat} {n : Node} {li ri : Nat}
    (hk : n.kind = Kind.add) (hl : n.l = some li) (hr : n.r = some ri)
    (h1 : li < i) (h2 : ri < i)
    (h3 : kindAt p (some li) ≠ some Kind.int)
    (h4 : ¬(kindAt p (some ri) = some Kind.int ∧ valAt p (some ri) = 0))
    (h5 : li ≠ ri)
    (h6 : ¬(kindAt p (some li) = some Kind.add ∧
            kindAt p (childR p (some li)) = some Kind.int)) :
    wfShape p i n = true := by
  unfold wfShape
  rw [hk, hl, hr]
  simp only [Bool.and_eq_true, Bool.not_eq_true', decide_eq_true_eq,
    Bool.and_eq_false_iff, beq_eq_false_iff_ne, ne_eq, beq_iff_eq]
  tauto

theorem wfShape_mul_intro {p : Pool} {i : Nat} {n : Node} {li ri : Nat}
    (hk : n.kind = Kind.mul) (hl : n.l = some li) (hr : n.r = some ri)
    (h1 : li < i) (h2 : ri < i)
    (h3 : kindAt p (some li) ≠ some Kind.int)
    (h4 : ¬(kindAt p (some ri) = some Kind.int ∧
            (valAt p (some ri) = 0 ∨ valAt p (some ri) = 1)))
    (h5 : ¬(kindAt p (some li) = some Kind.mul ∧
            kindAt p (childR p (some li)) = some Kind.int))
    (h6 : ¬(kindAt p (some ri) = some Kind.int ∧ kindAt p (some li) = some Kind.add ∧
            kindAt p (childR p (some li)) = some Kind.int)) :
    wfShape p i n = true := by
  unfold wfShape
  rw [hk, hl, hr]
  simp only [Bool.and_eq_true, Bool.not_eq_true', decide_eq_true_eq,
    Bool.and_eq_false_iff, Bool.or_eq_false_iff, beq_eq_false_iff_ne, ne_eq,
    beq_iff_eq]
  tauto

theorem wfShape_leaf_intro {p : Pool} {i : Nat} {n : Node}
    (hk : n.kind = Kind.int ∨ n.kind = Kind.name)
    (hl : n.l = none) (hr : n.r = none) :
    wfShape p i n = true := by
  unfold wfShape
  rcases hk with hk | hk <;> rw [hk, hl, hr] <;> simp

theorem wfShape_mono {p q : Pool} (hlt : childrenLT p)
    (hagree : ∀ t, t < p.length → (q[t]?).map shapeOf = (p[t]?).map shapeOf)
    {j : Nat} {m : Node} (hj : j ≤ p.length) (h : wfShape p j m = true) :
    wfShape q j m = true := by
  cases hk : m.kind with
  | int =>
    obtain ⟨hl, hr⟩ := wfShape_leaf_elim h (Or.inl hk)
    exact wfShape_leaf_intro (Or.inl hk) hl hr
  | name =>
    obtain ⟨hl, hr⟩ := wfShape_leaf_elim h (Or.inr hk)
    exact wfShape_leaf_intro (Or.inr hk) hl hr
  | add =>
    obtain ⟨li, ri, hl, hr, hli, hri, h3, h4, h5, h6⟩ := wfShape_add_elim h hk
    have ekl := kindAt_of_shapeAgree (hagree li (by omega))
    have ekr := kindAt_of_shapeAgree (hagree ri (by omega))
    have evr := valAt_of_shapeAgree (hagree ri (by omega))
    have ecr := childR_of_shapeAgree (hagree li (by omega))
    have egk : kindAt q (childR q (some li)) = kindAt p (childR p (some li)) := by
      rw [ecr]
      cases hcr : childR p (some li) with
      | none => rfl
      | some g =>
        cases hpli : p[li]? with
        | none => simp only [childR] at hcr; rw [hpli] at hcr; simp at hcr
        | some nl =>
          have hg : nl.r = some g := by
            simp only [childR] at hcr
            rw [hpli] at hcr
            simpa using hcr
          have hglt : g < li := (hlt li nl hpli).2 g hg
          exact kindAt_of_shapeAgree (hagree g (by omega))
    refine wfShape_add_intro hk hl hr hli hri ?_ ?_ h5 ?_
    · rw [ekl]; exact h3
    · rw [ekr, evr]; exact h4
    · rw [ekl, egk]; exact h6
  | mul =>
    obtain ⟨li, ri, hl, hr, hli, hri, h3, h4, h5, h6⟩ := wfShape_mul_elim h hk
    have ekl := kindAt_of_shapeAgree (hagree li (by omega))
    have ekr := kindAt_of_shapeAgree (hagree ri (by omega))
    have evr := valAt_of_shapeAgree (hagree ri (by omega))
    have ecr := childR_of_shapeAgree (hagree li (by omega))
    have egk : kindAt q (childR q (some li)) = kindAt p (childR p (some li)) := by
      rw [ecr]
      cases hcr : childR p (some li) with
      | none => rfl
      | some g =>
        cases hpli : p[li]? with
        | none => simp only [childR] at hcr; rw [hpli] at hcr; simp at hcr
        | some nl =>
          have hg : nl.r = some g := by
            simp only [childR] at hcr
            rw [hpli] at hcr
            simpa using hcr
          have hglt : g < li := (hlt li nl hpli).2 g hg
          exact kindAt_of_shapeAgree (hagree g (by omega))
    refine wfShape_mul_intro hk hl hr hli hri ?_ ?_ ?_ ?_
    · rw [ekl]; exact h3
    · rw [ekr, evr]; exact h4
    · rw [ekl, egk]; exact h5
    · rw [ekr, ekl, egk]; exact h6

theorem wfShape_sharedIrrel (p : Pool) (i : Nat) (n : Node) (s : Nat) :
    wfShape p i { n with shared := s } = wfShape p i n := by
  cases n
  rfl

theorem shapeEqB_ext {m m' n n' : Node} (hm : shapeOf m' = shapeOf m)
    (hn : shapeOf n' = shapeOf n) : shapeEqB m' n' = shapeEqB m n := by
  cases hb : shapeEqB m n
  · cases hb2 : shapeEqB m' n'
    · rfl
    · exfalso
      have hs := shapeEqB_true_iff.mp hb2
      rw [hm, hn] at hs
      rw [shapeEqB_true_iff.mpr hs] at hb
      cases hb
  · rw [shapeEqB_true_iff.mpr (by rw [hm, hn]; exact shapeEqB_true_iff.mp hb)]

theorem wfDup_of_shapes {p q : Pool} (hlen : q.length = p.length)
    (h : ∀ t : Nat, (q[t]?).map shapeOf = (p[t]?).map shapeOf)
    (hd : wfDup p = true) : wfDup q = true := by
  unfold wfDup at hd ⊢
  rw [List.all_eq_true] at hd ⊢
  intro i hi
  rw [List.all_eq_true]
  intro j hj
  rw [List.mem_range] at hj
  rw [List.mem_range, hlen] at hi
  have hd2 := List.all_eq_true.mp (hd i (List.mem_range.mpr hi)) j (List.mem_range.mpr hj)
  have hqi := h i
  have hqj := h j
  cases hgi : q[i]? with
  | none => simp
  | some m =>
    cases hgj : q[j]? with
    | none => simp
    | some n =>
      rw [hgi] at hqi
      rw [hgj] at hqj
      cases hpi : p[i]? with
      | none => rw [hpi] at hqi; simp at hqi
      | some m0 =>
        cases hpj : p[j]? with
        | none => rw [hpj] at hqj; simp at hqj
        | some n0 =>
          rw [hpi] at hqi
          rw [hpj] at hqj
          simp only [Option.map_some'] at hqi hqj
          rw [hpi, hpj] at hd2
          simp only at hd2 ⊢
          rw [shapeEqB_ext (by simpa using hqi) (by simpa using hqj)]
          simpa using hd2

theorem wf_bumpShared {p : Pool} (h : wf p = true) (i : Nat) :
    wf (bumpShared p i) = true := by
  have hagree : ∀ t : Nat,
      ((bumpShared p i)[t]?).map shapeOf = (p[t]?).map shapeOf :=
    bumpShared_get? p i
  have hlt := childrenLT_of_wf h
  unfold wf at h ⊢
  rw [Bool.and_eq_true] at h ⊢
  refine ⟨?_, ?_⟩
  · rw [List.all_eq_true]
    intro j hj
    rw [List.mem_range, bumpShared_length] at hj
    unfold wfEntry
    cases hg : (bumpShared p i)[j]? with
    | none => rfl
    | some m =>
      rw [bumpShared_getElem] at hg
      by_cases hij : i = j
      · rw [if_pos hij] at hg
        cases hp : p[j]? with
        | none => rw [hp] at hg; simp at hg
        | some n0 =>
          rw [hp] at hg
          simp only [Option.map_some'] at hg
          cases hg.symm
          unfold wfNode
          rw [Bool.and_eq_true]
          constructor
          · simp
          · rw [wfShape_sharedIrrel]
            exact wfShape_mono hlt (fun t _ => hagree t) (by omega)
              (wf_shape (by unfold wf; rw [Bool.and_eq_true]; exact h) hp)
      · rw [if_neg hij] at hg
        unfold wfNode
        rw [Bool.and_eq_true]
        constructor
        · exact decide_eq_true (wf_sharedPos (by unfold wf; rw [Bool.and_eq_true]; exact h) hg)
        · have hjlen : j < p.length := (List.getElem?_eq_some.mp hg).1
          exact wfShape_mono hlt (fun t _ => hagree t) (by omega)
            (wf_shape (by unfold wf; rw [Bool.and_eq_true]; exact h) hg)
  · exact wfDup_of_shapes (bumpShared_length p i) hagree h.2

theorem shapeEqB_new_of_matchNode {kind : Kind} {l r : Option Nat} {k : Int}
    {sh al rg : Nat} {m : Node} (h : matchNode kind l r k m = false) :
    shapeEqB ⟨kind, l, r, k, sh, al, rg⟩ m = false := by
  cases hb : shapeEqB ⟨kind, l, r, k, sh, al, rg⟩ m
  · rfl
  · exfalso
    have hs := shapeOf_eq_iff.mp (shapeEqB_true_iff.mp hb)
    obtain ⟨h1, h2, h3, h4⟩ := hs
    simp only at h1 h2 h3 h4
    unfold matchNode at h
    rw [← h1, ← h2, ← h3, ← h4] at h
    simp at h

theorem wf_append {p : Pool} (hwf : wf p = true) {n : Node}
    (hshape : wfShape (p ++ [n]) p.length n = true)
    (hsh : 1 ≤ n.shared)
    (hdup : ∀ m ∈ p, shapeEqB n m = false) : wf (p ++ [n]) = true := by
  have hlt := childrenLT_of_wf hwf
  unfold wf at hwf ⊢
  rw [Bool.and_eq_true] at hwf ⊢
  refine ⟨?_, ?_⟩
  · rw [List.all_eq_true]
    intro j hj
    rw [List.mem_range, List.length_append] at hj
    simp only [List.length_singleton] at hj
    unfold wfEntry
    by_cases hjp : j < p.length
    · rw [List.getElem?_append_left hjp]
      cases hg : p[j]? with
      | none => rfl
      | some m =>
        unfold wfNode
        rw [Bool.and_eq_true]
        constructor
        · exact decide_eq_true
            (wf_sharedPos (by unfold wf; rw [Bool.and_eq_true]; exact hwf) hg)
        · exact wfShape_mono hlt
            (fun t ht => by rw [List.getElem?_append_left ht]) (by omega)
            (wf_shape (by unfold wf; rw [Bool.and_eq_true]; exact hwf) hg)
    · have hje : j = p.length := by omega
      subst hje
      rw [List.getElem?_concat_length]
      unfold wfNode
      rw [Bool.and_eq_true]
      exact ⟨decide_eq_true hsh, hshape⟩
  · unfold wfDup
    rw [List.all_eq_true]
    intro i hi
    rw [List.all_eq_true]
    intro j hj
    rw [List.mem_range] at hj
    rw [List.mem_range, List.length_append, List.length_singleton] at hi
    by_cases hip : i < p.length
    · rw [List.getElem?_append_left hip, List.getElem?_append_left (by omega)]
      have hd2 := List.all_eq_true.mp
        (List.all_eq_true.mp hwf.2 i (List.mem_range.mpr hip)) j (List.mem_range.mpr hj)
      exact hd2
    · have hie : i = p.length := by omega
      subst hie
      rw [List.getElem?_concat_length, List.getElem?_append_left (by omega)]
      cases hg : p[j]? with
      | none => simp
      | some m =>
        simp only
        rw [hdup m (List.getElem?_mem hg)]
        rfl

theorem evalA_int {p : Pool} {i : Nat} {n : Node} (hg : p[i]? = some n)
    (hk : n.kind = Kind.int) (env : Int → Int) : evalA p env i = n.intValue := by
  simp [evalA, evalN, hg, hk]

theorem evalA_name {p : Pool} {i : Nat} {n : Node} (hg : p[i]? = some n)
    (hk : n.kind = Kind.name) (env : Int → Int) : evalA p env i = env n.intValue := by
  simp [evalA, evalN, hg, hk]

theorem evalA_add {p : Pool} (hc : childrenLT p) {i : Nat} {n : Node}
    (hg : p[i]? = some n) (hk : n.kind = Kind.add) (env : Int → Int) :
    evalA p env i = evalO p env n.l + evalO p env n.r := by
  simp only [evalA, evalN, hg, hk]
  congr 1
  · cases hl : n.l with
    | none => rw [evalN_none]; rfl
    | some li =>
      have hli := (hc i n hg).1 li hl
      exact evalN_fuel hc env li i (li + 1) hli (by omega)
  · cases hr : n.r with
    | none => rw [evalN_none]; rfl
    | some ri =>
      have hri := (hc i n hg).2 ri hr
      exact evalN_fuel hc env ri i (ri + 1) hri (by omega)

theorem evalA_mul {p : Pool} (hc : childrenLT p) {i : Nat} {n : Node}
    (hg : p[i]? = some n) (hk : n.kind = Kind.mul) (env : Int → Int) :
    evalA p env i = evalO p env n.l * evalO p env n.r := by
  simp only [evalA, evalN, hg, hk]
  congr 1
  · cases hl : n.l with
    | none => rw [evalN_none]; rfl
    | some li =>
      have hli := (hc i n hg).1 li hl
      exact evalN_fuel hc env li i (li + 1) hli (by omega)
  · cases hr : n.r with
    | none => rw [evalN_none]; rfl
    | some ri =>
      have hri := (hc i n hg).2 ri hr
      exact evalN_fuel hc env ri i (ri + 1) hri (by omega)

theorem evalA_shapesLE {p q : Pool} (hc : childrenLT p) (hle : shapesLE p q)
    {j : Nat} (hj : j < p.length) (env : Int → Int) :
    evalA q env j = evalA p env j :=
  evalN_of_shapesLE hc hle env (j + 1) j hj

theorem evalO_shapesLE {p q : Pool} (hc : childrenLT p) (hle : shapesLE p q)
    {o : Option Nat} (ho : ∀ t, o = some t → t < p.length) (env : Int → Int) :
    evalO q env o = evalO p env o := by
  cases o with
  | none => rfl
  | some t => exact evalA_shapesLE hc hle (ho t rfl) env

theorem kindAt_some_elim {p : Pool} {o : Option Nat} {kk : Kind}
    (h : kindAt p o = some kk) :
    ∃ t n, o = some t ∧ p[t]? = some n ∧ n.kind = kk := by
  cases o with
  | none => simp [kindAt] at h
  | some t =>
    simp only [kindAt] at h
    cases hg : p[t]? with
    | none => rw [hg] at h; simp at h
    | some n =>
      rw [hg] at h
      simp only [Option.map_some'] at h
      exact ⟨t, n, rfl, hg, by simpa using h⟩

theorem evalO_int {p : Pool} {o : Option Nat} (h : kindAt p o = some Kind.int)
    (env : Int → Int) : evalO p env o = valAt p o := by
  obtain ⟨t, n, rfl, hg, hk⟩ := kindAt_some_elim h
  simp only [evalO, valAt, hg, Option.map_some', Option.getD_some]
  exact evalA_int hg hk env

theorem canon_cases (p : Pool) (kind : Kind) (l r : Option Nat) :
    (¬((kind = Kind.add ∨ kind = Kind.mul) ∧ kindAt p l = some Kind.int) ∧
     canonL p kind l r = l ∧ canonR p kind l r = r) ∨
    ((kind = Kind.add ∨ kind = Kind.mul) ∧ kindAt p l = some Kind.int ∧
     canonL p kind l r = r ∧ canonR p kind l r = l) := by
  unfold canonL canonR
  by_cases hc : (kind = Kind.add ∨ kind = Kind.mul) ∧ kindAt p l = some Kind.int
  · right
    exact ⟨hc.1, hc.2, if_pos hc, if_pos hc⟩
  · left
    exact ⟨hc, if_neg hc, if_neg hc⟩

theorem argsOk_binary {p : Pool} {kind : Kind} {l r : Option Nat}
    (h : argsOk p kind l r) (hk : kind = Kind.add ∨ kind = Kind.mul) :
    ∃ li ri, canonL p kind l r = some li ∧ li < p.length ∧
      canonR p kind l r = some ri ∧ ri < p.length := by
  have h2 : (∃ li, l = some li ∧ li < p.length) ∧
      (∃ ri, r = some ri ∧ ri < p.length) := by
    rcases hk with hk | hk <;> rw [hk] at h <;> exact h
  obtain ⟨⟨li, hl, hli⟩, ⟨ri, hr, hri⟩⟩ := h2
  rcases canon_cases p kind l r with ⟨_, hcl, hcr⟩ | ⟨_, _, hcl, hcr⟩
  · exact ⟨li, ri, by rw [hcl, hl], hli, by rw [hcr, hr], hri⟩
  · exact ⟨ri, li, by rw [hcl, hr], hri, by rw [hcr, hl], hli⟩

theorem argsOk_shapesLE {p q : Pool} {kind : Kind} {l r : Option Nat}
    (h : argsOk p kind l r) (hle : shapesLE p q) : argsOk q kind l r := by
  cases kind with
  | int => exact h
  | name => exact h
  | add =>
    obtain ⟨⟨li, hl, hli⟩, ⟨ri, hr, hri⟩⟩ := h
    exact ⟨⟨li, hl, lt_of_lt_of_le hli hle.1⟩, ⟨ri, hr, lt_of_lt_of_le hri hle.1⟩⟩
  | mul =>
    obtain ⟨⟨li, hl, hli⟩, ⟨ri, hr, hri⟩⟩ := h
    exact ⟨⟨li, hl, lt_of_lt_of_le hli hle.1⟩, ⟨ri, hr, lt_of_lt_of_le hri hle.1⟩⟩

theorem kindAt_append {p : Pool} (n : Node) {t : Nat} (ht : t < p.length) :
    kindAt (p ++ [n]) (some t) = kindAt p (some t) := by
  simp only [kindAt]
  rw [List.getElem?_append_left ht]

theorem valAt_append {p : Pool} (n : Node) {t : Nat} (ht : t < p.length) :
    valAt (p ++ [n]) (some t) = valAt p (some t) := by
  simp only [valAt]
  rw [List.getElem?_append_left ht]

theorem childL_append {p : Pool} (n : Node) {t : Nat} (ht : t < p.length) :
    childL (p ++ [n]) (some t) = childL p (some t) := by
  simp only [childL]
  rw [List.getElem?_append_left ht]

theorem childR_append {p : Pool} (n : Node) {t : Nat} (ht : t < p.length) :
    childR (p ++ [n]) (some t) = childR p (some t) := by
  simp only [childR]
  rw [List.getElem?_append_left ht]

theorem grandKind_append {p : Pool} (hclt : childrenLT p) (n : Node) {t : Nat}
    (ht : t < p.length) :
    kindAt (p ++ [n]) (childR (p ++ [n]) (some t)) = kindAt p (childR p (some t)) := by
  rw [childR_append n ht]
  cases hcr : childR p (some t) with
  | none => rfl
  | some g =>
    cases hp : p[t]? with
    | none => simp only [childR] at hcr; rw [hp] at hcr; simp at hcr
    | some nt =>
      have hg : nt.r = some g := by
        simp only [childR] at hcr
        rw [hp] at hcr
        simpa using hcr
      have hgt := (hclt t nt hp).2 g hg
      exact kindAt_append n (by omega)

theorem mk_main : ∀ (fuel : Nat) (p : Pool) (kind : Kind) (l r : Option Nat) (k : Int)
    (q : Pool) (i : Nat), mk fuel p kind l r k = some (q, i) → wf p = true →
    argsOk p kind l r →
    wf q = true ∧ shapesLE p q ∧ i < q.length ∧
    ∀ env : Int → Int, evalA q env i = semOf p env kind l r k := by
  intro fuel
  induction fuel with
  | zero =>
    intro p kind l r k q i hmk
    simp [mk] at hmk
  | succ fuel ih =>
    intro p kind l r k q i hmk hwf hargs
    have hclt := childrenLT_of_wf hwf
    simp only [mk] at hmk
    cases hfm : firstMatch (matchNode kind (canonL p kind l r) (canonR p kind l r) k) p with
    | some j =>
      rw [hfm] at hmk
      simp only [Option.some.injEq, Prod.mk.injEq] at hmk
      obtain ⟨hq, hi⟩ := hmk
      subst hq
      subst hi
      obtain ⟨n, hn, hqn⟩ := firstMatch_some hfm
      have hj : j < p.length := (List.getElem?_eq_some.mp hn).1
      simp only [matchNode, Bool.and_eq_true, beq_iff_eq] at hqn
      obtain ⟨⟨⟨hnk, hnl⟩, hnr⟩, hnv⟩ := hqn
      refine ⟨wf_bumpShared hwf j, shapesLE_bumpShared p j,
        by rw [bumpShared_length]; exact hj, fun env => ?_⟩
      have he : evalA (bumpShared p j) env j = evalA p env j :=
        evalA_shapesLE hclt (shapesLE_bumpShared p j) hj env
      rw [he]
      cases hk : kind with
      | int =>
        rw [hk] at hnk
        rw [evalA_int hn hnk env, hnv]
        rfl
      | name =>
        rw [hk] at hnk
        rw [evalA_name hn hnk env, hnv]
        rfl
      | add =>
        rw [hk] at hnk hnl hnr
        rw [evalA_add hclt hn hnk env, hnl, hnr]
        rcases canon_cases p Kind.add l r with ⟨_, hcl, hcr⟩ | ⟨_, _, hcl, hcr⟩
        · rw [hcl, hcr]
          rfl
        · rw [hcl, hcr]
          show evalO p env r + evalO p env l = semOf p env Kind.add l r k
          unfold semOf
          exact add_comm _ _
      | mul =>
        rw [hk] at hnk hnl hnr
        rw [evalA_mul hclt hn hnk env, hnl, hnr]
        rcases canon_cases p Kind.mul l r with ⟨_, hcl, hcr⟩ | ⟨_, _, hcl, hcr⟩
        · rw [hcl, hcr]
          rfl
        · rw [hcl, hcr]
          show evalO p env r * evalO p env l = semOf p env Kind.mul l r k
          unfold semOf
          exact mul_comm _ _
    | none =>
      rw [hfm] at hmk
      by_cases g1 : kind = Kind.add ∧ kindAt p (canonL p kind l r) = some Kind.int ∧
          kindAt p (canonR p kind l r) = some Kind.int
      · rw [if_pos g1] at hmk
        obtain ⟨hka, hkl, hkr⟩ := g1
        subst hka
        obtain ⟨hwq, hle, hi, heval⟩ :=
          ih p Kind.int none none _ q i hmk hwf ⟨rfl, rfl⟩
        refine ⟨hwq, hle, hi, fun env => ?_⟩
        rw [heval env]
        have e1 := evalO_int hkl env
        have e2 := evalO_int hkr env
        unfold semOf
        rw [← e1, ← e2]
        rcases canon_cases p Kind.add l r with ⟨_, hcl, hcr⟩ | ⟨_, _, hcl, hcr⟩
        · rw [hcl, hcr]
        · rw [hcl, hcr]
          exact add_comm _ _
      · rw [if_neg g1] at hmk
        by_cases g2 : kind = Kind.mul ∧ kindAt p (canonL p kind l r) = some Kind.int ∧
            kindAt p (canonR p kind l r) = some Kind.int
        · rw [if_pos g2] at hmk
          obtain ⟨hka, hkl, hkr⟩ := g2
          subst hka
          obtain ⟨hwq, hle, hi, heval⟩ :=
            ih p Kind.int none none _ q i hmk hwf ⟨rfl, rfl⟩
          refine ⟨hwq, hle, hi, fun env => ?_⟩
          rw [heval env]
          have e1 := evalO_int hkl env
          have e2 := evalO_int hkr env
          unfold semOf
          rw [← e1, ← e2]
          rcases canon_cases p Kind.mul l r with ⟨_, hcl, hcr⟩ | ⟨_, _, hcl, hcr⟩
          · rw [hcl, hcr]
          · rw [hcl, hcr]
            exact mul_comm _ _
        · rw [if_neg g2] at hmk
          by_cases g3 : kind = Kind.mul ∧ kindAt p (canonR p kind l r) = some Kind.int ∧
              valAt p (canonR p kind l r) = 0
          · rw [if_pos g3] at hmk
            obtain ⟨hka, hkr, hvr⟩ := g3
            subst hka
            obtain ⟨hwq, hle, hi, heval⟩ :=
              ih p Kind.int none none _ q i hmk hwf ⟨rfl, rfl⟩
            refine ⟨hwq, hle, hi, fun env => ?_⟩
            rw [heval env]
            have e2 := evalO_int hkr env
            simp only [semOf]
            rcases canon_cases p Kind.mul l r with ⟨_, hcl, hcr⟩ | ⟨_, _, hcl, hcr⟩
            · rw [hcr] at e2 hvr
              rw [e2, hvr]
              ring
            · rw [hcr] at e2 hvr
              rw [e2, hvr]
              ring
          · rw [if_neg g3] at hmk
            by_cases g4 : kind = Kind.mul ∧ kindAt p (canonR p kind l r) = some Kind.int ∧
                valAt p (canonR p kind l r) = 1
            · rw [if_pos g4] at hmk
              obtain ⟨hka, hkr, hvr⟩ := g4
              subst hka
              obtain ⟨c, ric, hclc, hlc, hcrc, hrc⟩ := argsOk_binary hargs (Or.inr rfl)
              rw [hclc] at hmk
              simp only [Option.map_some', Option.some.injEq, Prod.mk.injEq] at hmk
              obtain ⟨hq, hi⟩ := hmk
              subst hq
              subst hi
              refine ⟨hwf, shapesLE_refl p, hlc, fun env => ?_⟩
              have e2 := evalO_int hkr env
              simp only [semOf]
              rcases canon_cases p Kind.mul l r with ⟨_, hcl, hcr⟩ | ⟨_, _, hcl, hcr⟩
              · have hl2 : l = some c := by rw [← hcl, hclc]
                rw [hcr] at e2 hvr
                rw [hl2, e2, hvr]
                simp [evalO]
              · have hr2 : r = some c := by rw [← hcl, hclc]
                rw [hcr] at e2 hvr
                rw [hr2, e2, hvr]
                simp [evalO]
            · rw [if_neg g4] at hmk
              by_cases g5 : kind = Kind.add ∧ kindAt p (canonR p kind l r) = some Kind.int ∧
                  valAt p (canonR p kind l r) = 0
              · rw [if_pos g5] at hmk
                obtain ⟨hka, hkr, hvr⟩ := g5
                subst hka
                obtain ⟨c, ric, hclc, hlc, hcrc, hrc⟩ := argsOk_binary hargs (Or.inl rfl)
                rw [hclc] at hmk
                simp only [Option.map_some', Option.some.injEq, Prod.mk.injEq] at hmk
                obtain ⟨hq, hi⟩ := hmk
                subst hq
                subst hi
                refine ⟨hwf, shapesLE_refl p, hlc, fun env => ?_⟩
                have e2 := evalO_int hkr env
                simp only [semOf]
                rcases canon_cases p Kind.add l r with ⟨_, hcl, hcr⟩ | ⟨_, _, hcl, hcr⟩
                · have hl2 : l = some c := by rw [← hcl, hclc]
                  rw [hcr] at e2 hvr
                  rw [hl2, e2, hvr]
                  simp [evalO]
                · have hr2 : r = some c := by rw [← hcl, hclc]
                  rw [hcr] at e2 hvr
                  rw [hr2, e2, hvr]
                  simp [evalO]
              · rw [if_neg g5] at hmk
                by_cases g6 : kind = Kind.add ∧ canonR p kind l r = canonL p kind l r
                · rw [if_pos g6] at hmk
                  obtain ⟨hka, hrl⟩ := g6
                  subst hka
                  obtain ⟨c, ric, hclc, hlc, hcrc, hrc⟩ := argsOk_binary hargs (Or.inl rfl)
                  cases hmk2 : mk fuel p Kind.int none none 2 with
                  | none => rw [hmk2] at hmk; simp at hmk
                  | some res =>
                    obtain ⟨p2, two⟩ := res
                    rw [hmk2] at hmk
                    simp only at hmk
                    obtain ⟨hw2, hle2, hi2, hev2⟩ :=
                      ih p Kind.int none none 2 p2 two hmk2 hwf ⟨rfl, rfl⟩
                    have hargs3 : argsOk p2 Kind.mul (some two) (canonL p Kind.add l r) :=
                      ⟨⟨two, rfl, hi2⟩, ⟨c, hclc, lt_of_lt_of_le hlc hle2.1⟩⟩
                    obtain ⟨hwq, hleq, hiq, hevq⟩ :=
                      ih p2 Kind.mul (some two) _ 0 q i hmk hw2 hargs3
                    refine ⟨hwq, shapesLE_trans hle2 hleq, hiq, fun env => ?_⟩
                    rw [hevq env]
                    have hls : l = some c ∧ r = some c := by
                      rcases canon_cases p Kind.add l r with ⟨_, hcl, hcr⟩ | ⟨_, _, hcl, hcr⟩
                      · exact ⟨by rw [← hcl, hclc], by rw [← hcr, hrl, hclc]⟩
                      · exact ⟨by rw [← hcr, hrl, hclc], by rw [← hcl, hclc]⟩
                    have h2v : evalA p2 env two = 2 := by
                      rw [hev2 env]
                      rfl
                    simp only [semOf]
                    rw [hclc, hls.1, hls.2]
                    simp only [evalO]
                    rw [h2v, evalA_shapesLE hclt hle2 hlc env]
                    ring
                · rw [if_neg g6] at hmk
                  by_cases g7 : kind = Kind.add ∧ kindAt p (canonL p kind l r) = some Kind.add ∧
                      kindAt p (childR p (canonL p kind l r)) = some Kind.int
                  · rw [if_pos g7] at hmk
                    obtain ⟨hka, hlk, hgk⟩ := g7
                    subst hka
                    obtain ⟨c, nc, hceq, hcg, hck⟩ := kindAt_some_elim hlk
                    obtain ⟨la, ra, hncl, hncr, hla, hra, _⟩ :=
                      wfShape_add_elim (wf_shape hwf hcg) hck
                    have hc_len : c < p.length := (List.getElem?_eq_some.mp hcg).1
                    have hra_len : ra < p.length := lt_trans (lt_of_lt_of_le hra (le_refl c)) hc_len
                    have hla_len : la < p.length := lt_trans hla hc_len
                    have hcrl : childR p (canonL p Kind.add l r) = some ra := by
                      rw [hceq]
                      simp [childR, hcg, hncr]
                    have hcll : childL p (canonL p Kind.add l r) = some la := by
                      rw [hceq]
                      simp [childL, hcg, hncl]
                    obtain ⟨cc, rc, hclc2, hlc2, hcrc2, hrc2⟩ := argsOk_binary hargs (Or.inl rfl)
                    cases hmk2 : mk fuel p Kind.add (canonR p Kind.add l r)
                        (childR p (canonL p Kind.add l r)) 0 with
                    | none => rw [hmk2] at hmk; simp at hmk
                    | some res =>
                      obtain ⟨p2, inner⟩ := res
                      rw [hmk2] at hmk
                      simp only at hmk
                      have hargs2 : argsOk p Kind.add (canonR p Kind.add l r)
                          (childR p (canonL p Kind.add l r)) :=
                        ⟨⟨rc, hcrc2, hrc2⟩, ⟨ra, hcrl, hra_len⟩⟩
                      obtain ⟨hw2, hle2, hi2, hev2⟩ :=
                        ih p Kind.add _ _ 0 p2 inner hmk2 hwf hargs2
                      have hargs3 : argsOk p2 Kind.add (childL p (canonL p Kind.add l r))
                          (some inner) :=
                        ⟨⟨la, hcll, lt_of_lt_of_le hla_len hle2.1⟩, ⟨inner, rfl, hi2⟩⟩
                      obtain ⟨hwq, hleq, hiq, hevq⟩ :=
                        ih p2 Kind.add _ _ 0 q i hmk hw2 hargs3
                      refine ⟨hwq, shapesLE_trans hle2 hleq, hiq, fun env => ?_⟩
                      rw [hevq env]
                      simp only [semOf]
                      rw [hcll]
                      simp only [evalO]
                      rw [evalA_shapesLE hclt hle2 hla_len env]
                      have hinner : evalA p2 env inner =
                          evalO p env (canonR p Kind.add l r) +
                          evalO p env (childR p (canonL p Kind.add l r)) := by
                        rw [hev2 env]
                        rfl
                      rw [hinner, hcrl]
                      simp only [evalO]
                      have hcval : evalA p env c = evalA p env la + evalA p env ra := by
                        rw [evalA_add hclt hcg hck env, hncl, hncr]
                        rfl
                      rcases canon_cases p Kind.add l r with ⟨_, hcl, hcr⟩ | ⟨_, _, hcl, hcr⟩
                      · have hl2 : l = some c := by rw [← hcl, hceq]
                        set ct := canonR p Kind.add l r with hct
                        conv_rhs => rw [← hcr]
                        rw [hl2]
                        simp only []
                        rw [hcval]
                        ring
                      · have hr2 : r = some c := by rw [← hcl, hceq]
                        set ct := canonR p Kind.add l r with hct
                        conv_rhs => rw [← hcr]
                        rw [hr2]
                        simp only []
                        rw [hcval]
                        ring
                  · rw [if_neg g7] at hmk
                    by_cases g8 : kind = Kind.mul ∧ kindAt p (canonL p kind l r) = some Kind.mul ∧
                        kindAt p (childR p (canonL p kind l r)) = some Kind.int
                    · rw [if_pos g8] at hmk
                      obtain ⟨hka, hlk, hgk⟩ := g8
                      subst hka
                      obtain ⟨c, nc, hceq, hcg, hck⟩ := kindAt_some_elim hlk
                      obtain ⟨la, ra, hncl, hncr, hla, hra, _⟩ :=
                        wfShape_mul_elim (wf_shape hwf hcg) hck
                      have hc_len : c < p.length := (List.getElem?_eq_some.mp hcg).1
                      have hra_len : ra < p.length := lt_trans hra hc_len
                      have hla_len : la < p.length := lt_trans hla hc_len
                      have hcrl : childR p (canonL p Kind.mul l r) = some ra := by
                        rw [hceq]
                        simp [childR, hcg, hncr]
                      have hcll : childL p (canonL p Kind.mul l r) = some la := by
                        rw [hceq]
                        simp [childL, hcg, hncl]
                      obtain ⟨cc, rc, hclc2, hlc2, hcrc2, hrc2⟩ := argsOk_binary hargs (Or.inr rfl)
                      cases hmk2 : mk fuel p Kind.mul (canonR p Kind.mul l r)
                          (childR p (canonL p Kind.mul l r)) 0 with
                      | none => rw [hmk2] at hmk; simp at hmk
                      | some res =>
                        obtain ⟨p2, inner⟩ := res
                        rw [hmk2] at hmk
                        simp only at hmk
                        have hargs2 : argsOk p Kind.mul (canonR p Kind.mul l r)
                            (childR p (canonL p Kind.mul l r)) :=
                          ⟨⟨rc, hcrc2, hrc2⟩, ⟨ra, hcrl, hra_len⟩⟩
                        obtain ⟨hw2, hle2, hi2, hev2⟩ :=
                          ih p Kind.mul _ _ 0 p2 inner hmk2 hwf hargs2
                        have hargs3 : argsOk p2 Kind.mul (childL p (canonL p Kind.mul l r))
                            (some inner) :=
                          ⟨⟨la, hcll, lt_of_lt_of_le hla_len hle2.1⟩, ⟨inner, rfl, hi2⟩⟩
                        obtain ⟨hwq, hleq, hiq, hevq⟩ :=
                          ih p2 Kind.mul _ _ 0 q i hmk hw2 hargs3
                        refine ⟨hwq, shapesLE_trans hle2 hleq, hiq, fun env => ?_⟩
                        rw [hevq env]
                        simp only [semOf]
                        rw [hcll]
                        simp only [evalO]
                        rw [evalA_shapesLE hclt hle2 hla_len env]
                        have hinner : evalA p2 env inner =
                            evalO p env (canonR p Kind.mul l r) *
                            evalO p env (childR p (canonL p Kind.mul l r)) := by
                          rw [hev2 env]
                          rfl
                        rw [hinner, hcrl]
                        simp only [evalO]
                        have hcval : evalA p env c = evalA p env la * evalA p env ra := by
                          rw [evalA_mul hclt hcg hck env, hncl, hncr]
                          rfl
                        rcases canon_cases p Kind.mul l r with ⟨_, hcl, hcr⟩ | ⟨_, _, hcl, hcr⟩
                        · have hl2 : l = some c := by rw [← hcl, hceq]
                          set ct := canonR p Kind.mul l r with hct
                          conv_rhs => rw [← hcr]
                          rw [hl2]
                          simp only []
                          rw [hcval]
                          ring
                        · have hr2 : r = some c := by rw [← hcl, hceq]
                          set ct := canonR p Kind.mul l r with hct
                          conv_rhs => rw [← hcr]
                          rw [hr2]
                          simp only []
                          rw [hcval]
                          ring
                    · rw [if_neg g8] at hmk
                      by_cases g9 : kind = Kind.mul ∧ kindAt p (canonR p kind l r) = some Kind.int ∧
                          kindAt p (canonL p kind l r) = some Kind.add ∧
                          kindAt p (childR p (canonL p kind l r)) = some Kind.int
                      · rw [if_pos g9] at hmk
                        obtain ⟨hka, hrk, hlk, hgk⟩ := g9
                        subst hka
                        obtain ⟨c, nc, hceq, hcg, hck⟩ := kindAt_some_elim hlk
                        obtain ⟨la, ra, hncl, hncr, hla, hra, _⟩ :=
                          wfShape_add_elim (wf_shape hwf hcg) hck
                        have hc_len : c < p.length := (List.getElem?_eq_some.mp hcg).1
                        have hra_len : ra < p.length := lt_trans hra hc_len
                        have hla_len : la < p.length := lt_trans hla hc_len
                        have hcrl : childR p (canonL p Kind.mul l r) = some ra := by
                          rw [hceq]
                          simp [childR, hcg, hncr]
                        have hcll : childL p (canonL p Kind.mul l r) = some la := by
                          rw [hceq]
                          simp [childL, hcg, hncl]
                        obtain ⟨cc, rc, hclc2, hlc2, hcrc2, hrc2⟩ := argsOk_binary hargs (Or.inr rfl)
                        cases hmk2 : mk fuel p Kind.mul (childL p (canonL p Kind.mul l r))
                            (canonR p Kind.mul l r) 0 with
                        | none => rw [hmk2] at hmk; simp at hmk
                        | some res2 =>
                          obtain ⟨p2, av⟩ := res2
                          rw [hmk2] at hmk
                          simp only at hmk
                          cases hmk3 : mk fuel p2 Kind.mul (childR p (canonL p Kind.mul l r))
                              (canonR p Kind.mul l r) 0 with
                          | none => rw [hmk3] at hmk; simp at hmk
                          | some res3 =>
                            obtain ⟨p3, bv⟩ := res3
                            rw [hmk3] at hmk
                            simp only at hmk
                            have hargs2 : argsOk p Kind.mul
                                (childL p (canonL p Kind.mul l r)) (canonR p Kind.mul l r) :=
                              ⟨⟨la, hcll, hla_len⟩, ⟨rc, hcrc2, hrc2⟩⟩
                            obtain ⟨hw2, hle2, hi2, hev2⟩ :=
                              ih p Kind.mul _ _ 0 p2 av hmk2 hwf hargs2
                            have hargs3 : argsOk p2 Kind.mul
                                (childR p (canonL p Kind.mul l r)) (canonR p Kind.mul l r) :=
                              ⟨⟨ra, hcrl, lt_of_lt_of_le hra_len hle2.1⟩,
                               ⟨rc, hcrc2, lt_of_lt_of_le hrc2 hle2.1⟩⟩
                            obtain ⟨hw3, hle3, hi3, hev3⟩ :=
                              ih p2 Kind.mul _ _ 0 p3 bv hmk3 hw2 hargs3
                            have hargs4 : argsOk p3 Kind.add (some av) (some bv) :=
                              ⟨⟨av, rfl, lt_of_lt_of_le hi2 hle3.1⟩, ⟨bv, rfl, hi3⟩⟩
                            obtain ⟨hwq, hleq, hiq, hevq⟩ :=
                              ih p3 Kind.add _ _ 0 q i hmk hw3 hargs4
                            refine ⟨hwq, shapesLE_trans hle2 (shapesLE_trans hle3 hleq),
                              hiq, fun env => ?_⟩
                            rw [hevq env]
                            simp only [semOf]
                            simp only [evalO]
                            have hclt2 := childrenLT_of_wf hw2
                            rw [evalA_shapesLE hclt2 hle3 hi2 env]
                            rw [hev2 env, hev3 env]
                            simp only [semOf]
                            rw [hcll, hcrl]
                            have ecr2 : evalO p2 env (canonR p Kind.mul l r) =
                                evalO p env (canonR p Kind.mul l r) := by
                              rw [hcrc2]
                              simp only [evalO]
                              exact evalA_shapesLE hclt hle2 hrc2 env
                            have era2 : evalO p2 env (some ra) = evalO p env (some ra) := by
                              simp only [evalO]
                              exact evalA_shapesLE hclt hle2 hra_len env
                            rw [ecr2, era2]
                            simp only [evalO]
                            have hcval : evalA p env c = evalA p env la + evalA p env ra := by
                              rw [evalA_add hclt hcg hck env, hncl, hncr]
                              rfl
                            rcases canon_cases p Kind.mul l r with ⟨_, hcl, hcr⟩ | ⟨_, _, hcl, hcr⟩
                            · have hl2 : l = some c := by rw [← hcl, hceq]
                              set ct := canonR p Kind.mul l r with hct
                              conv_rhs => rw [← hcr]
                              rw [hl2]
                              simp only []
                              rw [hcval]
                              ring
                            · have hr2 : r = some c := by rw [← hcl, hceq]
                              set ct := canonR p Kind.mul l r with hct
                              conv_rhs => rw [← hcr]
                              rw [hr2]
                              simp only []
                              rw [hcval]
                              ring
                      · rw [if_neg g9] at hmk
                        simp only [Option.some.injEq, Prod.mk.injEq] at hmk
                        obtain ⟨hq, hi⟩ := hmk
                        subst hq
                        subst hi
                        have hdup : ∀ m ∈ p,
                            shapeEqB ⟨kind, canonL p kind l r, canonR p kind l r, k, 1, 0, 0⟩ m
                              = false :=
                          fun m hm => shapeEqB_new_of_matchNode (firstMatch_none hfm m hm)
                        cases hkind : kind with
                        | int =>
                          subst hkind
                          obtain ⟨hl0, hr0⟩ := hargs
                          subst hl0
                          subst hr0
                          have hcl : canonL p Kind.int none none = none := by
                            unfold canonL
                            simp
                          have hcr : canonR p Kind.int none none = none := by
                            unfold canonR
                            simp
                          rw [hcl, hcr] at hdup ⊢
                          have hshape : wfShape
                              (p ++ [(⟨Kind.int, none, none, k, 1, 0, 0⟩ : Node)]) p.length
                              ⟨Kind.int, none, none, k, 1, 0, 0⟩ = true :=
                            wfShape_leaf_intro (Or.inl rfl) rfl rfl
                          have hwq := wf_append hwf hshape (by simp) hdup
                          refine ⟨hwq, shapesLE_append p _, by simp, fun env => ?_⟩
                          rw [evalA_int (List.getElem?_concat_length p _) rfl env]
                          rfl
                        | name =>
                          subst hkind
                          obtain ⟨hl0, hr0⟩ := hargs
                          subst hl0
                          subst hr0
                          have hcl : canonL p Kind.name none none = none := by
                            unfold canonL
                            simp
                          have hcr : canonR p Kind.name none none = none := by
                            unfold canonR
                            simp
                          rw [hcl, hcr] at hdup ⊢
                          have hshape : wfShape
                              (p ++ [(⟨Kind.name, none, none, k, 1, 0, 0⟩ : Node)]) p.length
                              ⟨Kind.name, none, none, k, 1, 0, 0⟩ = true :=
                            wfShape_leaf_intro (Or.inr rfl) rfl rfl
                          have hwq := wf_append hwf hshape (by simp) hdup
                          refine ⟨hwq, shapesLE_append p _, by simp, fun env => ?_⟩
                          rw [evalA_name (List.getElem?_concat_length p _) rfl env]
                          rfl
                        | add =>
                          subst hkind
                          obtain ⟨li, ri, hclc, hli, hcrc, hri⟩ := argsOk_binary hargs (Or.inl rfl)
                          have hA : kindAt p (some li) ≠ some Kind.int := by
                            intro hc
                            rcases canon_cases p Kind.add l r with ⟨hns, hcl, hcr⟩ |
                                ⟨_, hkl, hcl, hcr⟩
                            · apply hns
                              refine ⟨Or.inl rfl, ?_⟩
                              have hle : l = some li := by rw [← hcl, hclc]
                              rw [hle]
                              exact hc
                            · apply g1
                              refine ⟨rfl, ?_, ?_⟩
                              · rw [hclc]
                                exact hc
                              · rw [hcr]
                                exact hkl
                          have hB : ¬(kindAt p (some ri) = some Kind.int ∧
                              valAt p (some ri) = 0) := by
                            intro hc
                            exact g5 ⟨rfl, by rw [hcrc]; exact hc.1, by rw [hcrc]; exact hc.2⟩
                          have hC : li ≠ ri := by
                            intro he
                            apply g6
                            refine ⟨rfl, ?_⟩
                            rw [hclc, hcrc, he]
                          have hD : ¬(kindAt p (some li) = some Kind.add ∧
                              kindAt p (childR p (some li)) = some Kind.int) := by
                            intro hc
                            exact g7 ⟨rfl, by rw [hclc]; exact hc.1, by rw [hclc]; exact hc.2⟩
                          rw [hclc, hcrc] at hdup ⊢
                          have hshape : wfShape
                              (p ++ [(⟨Kind.add, some li, some ri, k, 1, 0, 0⟩ : Node)]) p.length
                              ⟨Kind.add, some li, some ri, k, 1, 0, 0⟩ = true := by
                            refine wfShape_add_intro rfl rfl rfl hli hri ?_ ?_ hC ?_
                            · rw [kindAt_append _ hli]
                              exact hA
                            · rw [kindAt_append _ hri, valAt_append _ hri]
                              exact hB
                            · rw [kindAt_append _ hli, grandKind_append hclt _ hli]
                              exact hD
                          have hwq := wf_append hwf hshape (by simp) hdup
                          refine ⟨hwq, shapesLE_append p _, by simp, fun env => ?_⟩
                          rw [evalA_add (childrenLT_of_wf hwq)
                            (List.getElem?_concat_length p _) rfl env]
                          simp only [evalO]
                          rw [evalA_shapesLE hclt (shapesLE_append p _) hli env,
                            evalA_shapesLE hclt (shapesLE_append p _) hri env]
                          simp only [semOf]
                          rcases canon_cases p Kind.add l r with ⟨_, hcl, hcr⟩ |
                              ⟨_, _, hcl, hcr⟩
                          · have hle : l = some li := by rw [← hcl, hclc]
                            have hre : r = some ri := by rw [← hcr, hcrc]
                            rw [hle, hre]
                            simp only [evalO]
                          · have hle : l = some ri := by rw [← hcr, hcrc]
                            have hre : r = some li := by rw [← hcl, hclc]
                            rw [hle, hre]
                            simp only [evalO]
                            ring
                        | mul =>
                          subst hkind
                          obtain ⟨li, ri, hclc, hli, hcrc, hri⟩ := argsOk_binary hargs (Or.inr rfl)
                          have hA : kindAt p (some li) ≠ some Kind.int := by
                            intro hc
                            rcases canon_cases p Kind.mul l r with ⟨hns, hcl, hcr⟩ |
                                ⟨_, hkl, hcl, hcr⟩
                            · apply hns
                              refine ⟨Or.inr rfl, ?_⟩
                              have hle : l = some li := by rw [← hcl, hclc]
                              rw [hle]
                              exact hc
                            · apply g2
                              refine ⟨rfl, ?_, ?_⟩
                              · rw [hclc]
                                exact hc
                              · rw [hcr]
                                exact hkl
                          have hB : ¬(kindAt p (some ri) = some Kind.int ∧
                              (valAt p (some ri) = 0 ∨ valAt p (some ri) = 1)) := by
                            intro hc
                            rcases hc.2 with h0 | h1
                            · exact g3 ⟨rfl, by rw [hcrc]; exact hc.1, by rw [hcrc]; exact h0⟩
                            · exact g4 ⟨rfl, by rw [hcrc]; exact hc.1, by rw [hcrc]; exact h1⟩
                          have hC : ¬(kindAt p (some li) = some Kind.mul ∧
                              kindAt p (childR p (some li)) = some Kind.int) := by
                            intro hc
                            exact g8 ⟨rfl, by rw [hclc]; exact hc.1, by rw [hclc]; exact hc.2⟩
                          have hD : ¬(kindAt p (some ri) = some Kind.int ∧
                              kindAt p (some li) = some Kind.add ∧
                              kindAt p (childR p (some li)) = some Kind.int) := by
                            intro hc
                            exact g9 ⟨rfl, by rw [hcrc]; exact hc.1,
                              by rw [hclc]; exact hc.2.1, by rw [hclc]; exact hc.2.2⟩
                          rw [hclc, hcrc] at hdup ⊢
                          have hshape : wfShape
                              (p ++ [(⟨Kind.mul, some li, some ri, k, 1, 0, 0⟩ : Node)]) p.length
                              ⟨Kind.mul, some li, some ri, k, 1, 0, 0⟩ = true := by
                            refine wfShape_mul_intro rfl rfl rfl hli hri ?_ ?_ ?_ ?_
                            · rw [kindAt_append _ hli]
                              exact hA
                            · rw [kindAt_append _ hri, valAt_append _ hri]
                              exact hB
                            · rw [kindAt_append _ hli, grandKind_append hclt _ hli]
                              exact hC
                            · rw [kindAt_append _ hri, kindAt_append _ hli,
                                grandKind_append hclt _ hli]
                              exact hD
                          have hwq := wf_append hwf hshape (by simp) hdup
                          refine ⟨hwq, shapesLE_append p _, by simp, fun env => ?_⟩
                          rw [evalA_mul (childrenLT_of_wf hwq)
                            (List.getElem?_concat_length p _) rfl env]
                          simp only [evalO]
                          rw [evalA_shapesLE hclt (shapesLE_append p _) hli env,
                            evalA_shapesLE hclt (shapesLE_append p _) hri env]
                          simp only [semOf]
                          rcases canon_cases p Kind.mul l r with ⟨_, hcl, hcr⟩ |
                              ⟨_, _, hcl, hcr⟩
                          · have hle : l = some li := by rw [← hcl, hclc]
                            have hre : r = some ri := by rw [← hcr, hcrc]
                            rw [hle, hre]
                            simp only [evalO]
                          · have hle : l = some ri := by rw [← hcr, hcrc]
                            have hre : r = some li := by rw [← hcl, hclc]
                            rw [hle, hre]
                            simp only [evalO]
                            ring

theorem matchNode_elim {kind : Kind} {l r : Option Nat} {k : Int} {n : Node}
    (h : matchNode kind l r k n = true) :
    n.kind = kind ∧ n.l = l ∧ n.r = r ∧ n.intValue = k := by
  simp only [matchNode, Bool.and_eq_true, beq_iff_eq] at h
  tauto

theorem noStoredMulInt01 {p : Pool} (hwf : wf p = true) {rr : Nat} {nr : Node}
    (hr : p[rr]? = some nr) (hint : nr.kind = Kind.int)
    (hval : nr.intValue = 0 ∨ nr.intValue = 1) (lp : Option Nat) (k : Int) :
    firstMatch (matchNode Kind.mul lp (some rr) k) p = none := by
  cases hfm : firstMatch (matchNode Kind.mul lp (some rr) k) p with
  | none => rfl
  | some j =>
    exfalso
    obtain ⟨n, hn, hq⟩ := firstMatch_some hfm
    obtain ⟨hk, hl, hrr, hv⟩ := matchNode_elim hq
    obtain ⟨li, ri, hl2, hr2, _, _, _, h4, _, _⟩ :=
      wfShape_mul_elim (wf_shape hwf hn) hk
    rw [hrr] at hr2
    cases hr2
    apply h4
    constructor
    · simp [kindAt, hr, hint]
    · rcases hval with h0 | h1
      · left
        simp [valAt, hr, h0]
      · right
        simp [valAt, hr, h1]

theorem noStoredAddInt0 {p : Pool} (hwf : wf p = true) {rr : Nat} {nr : Node}
    (hr : p[rr]? = some nr) (hint : nr.kind = Kind.int) (hval : nr.intValue = 0)
    (lp : Option Nat) (k : Int) :
    firstMatch (matchNode Kind.add lp (some rr) k) p = none := by
  cases hfm : firstMatch (matchNode Kind.add lp (some rr) k) p with
  | none => rfl
  | some j =>
    exfalso
    obtain ⟨n, hn, hq⟩ := firstMatch_some hfm
    obtain ⟨hk, hl, hrr, hv⟩ := matchNode_elim hq
    obtain ⟨li, ri, hl2, hr2, _, _, _, h4, _, _⟩ :=
      wfShape_add_elim (wf_shape hwf hn) hk
    rw [hrr] at hr2
    cases hr2
    apply h4
    constructor
    · simp [kindAt, hr, hint]
    · simp [valAt, hr, hval]

theorem noStoredBinIntLeft {p : Pool} (hwf : wf p = true) {ll : Nat} {nl : Node}
    (hl : p[ll]? = some nl) (hint : nl.kind = Kind.int) {kind : Kind}
    (hk : kind = Kind.add ∨ kind = Kind.mul) (rp : Option Nat) (k : Int) :
    firstMatch (matchNode kind (some ll) rp k) p = none := by
  cases hfm : firstMatch (matchNode kind (some ll) rp k) p with
  | none => rfl
  | some j =>
    exfalso
    obtain ⟨n, hn, hq⟩ := firstMatch_some hfm
    obtain ⟨hnk, hnl, hnr, hv⟩ := matchNode_elim hq
    rcases hk with hk | hk
    · obtain ⟨li, ri, hl2, hr2, _, _, h3, _, _, _⟩ :=
        wfShape_add_elim (wf_shape hwf hn) (hk ▸ hnk)
      rw [hnl] at hl2
      cases hl2
      exact h3 (by simp [kindAt, hl, hint])
    · obtain ⟨li, ri, hl2, hr2, _, _, h3, _, _, _⟩ :=
        wfShape_mul_elim (wf_shape hwf hn) (hk ▸ hnk)
      rw [hnl] at hl2
      cases hl2
      exact h3 (by simp [kindAt, hl, hint])

theorem noStoredAddSelf {p : Pool} (hwf : wf p = true) (x : Nat) (k : Int) :
    firstMatch (matchNode Kind.add (some x) (some x) k) p = none := by
  cases hfm : firstMatch (matchNode Kind.add (some x) (some x) k) p with
  | none => rfl
  | some j =>
    exfalso
    obtain ⟨n, hn, hq⟩ := firstMatch_some hfm
    obtain ⟨hnk, hnl, hnr, hv⟩ := matchNode_elim hq
    obtain ⟨li, ri, hl2, hr2, _, _, _, _, h5, _⟩ :=
      wfShape_add_elim (wf_shape hwf hn) hnk
    rw [hnl] at hl2
    rw [hnr] at hr2
    cases hl2
    cases hr2
    exact h5 rfl

theorem firstMatch_isSome {q : Node → Bool} {p : Pool} {j : Nat} {n : Node}
    (hj : p[j]? = some n) (hq : q n = true) :
    firstMatch q p ≠ none := by
  intro hfm
  have := firstMatch_none hfm n (List.getElem?_mem hj)
  rw [hq] at this
  cases this

theorem mkInt_char {p : Pool} (hwf : wf p = true) (fuel : Nat) (v : Int) :
    ∃ q i, mk (fuel + 1) p Kind.int none none v = some (q, i) ∧
      (∃ m, q[i]? = some m ∧ m.kind = Kind.int ∧ m.l = none ∧ m.r = none ∧
        m.intValue = v) ∧
      shapesLE p q ∧ q.length ≤ p.length + 1 ∧ wf q = true ∧
      (∀ j m, p.length ≤ j → q[j]? = some m → m.kind = Kind.int) ∧
      (∀ z nz, p[z]? = some nz → nz.kind = Kind.int → nz.l = none → nz.r = none →
        nz.intValue = v → q = bumpShared p z ∧ i = z) := by
  have hcl : canonL p Kind.int none none = none := by
    unfold canonL
    simp
  have hcr : canonR p Kind.int none none = none := by
    unfold canonR
    simp
  simp only [mk, hcl, hcr]
  cases hfm : firstMatch (matchNode Kind.int none none v) p with
  | some j =>
    obtain ⟨n, hn, hq⟩ := firstMatch_some hfm
    obtain ⟨hnk, hnl, hnr, hnv⟩ := matchNode_elim hq
    have hj : j < p.length := (List.getElem?_eq_some.mp hn).1
    refine ⟨bumpShared p j, j, rfl, ?_, shapesLE_bumpShared p j,
      by rw [bumpShared_length]; omega, wf_bumpShared hwf j, ?_, ?_⟩
    · refine ⟨{ n with shared := n.shared + 1 }, ?_, hnk, hnl, hnr, hnv⟩
      rw [bumpShared_getElem]
      simp [hn]
    · intro j2 m hj2 hg
      exfalso
      have := (List.getElem?_eq_some.mp hg).1
      rw [bumpShared_length] at this
      omega
    · intro z nz hz hzk hzl hzr hzv
      have hzj : z = j := by
        refine wf_unique hwf hz hn (shapeOf_eq_iff.mpr ?_)
        rw [hzk, hnk, hzl, hnl, hzr, hnr, hzv, hnv]
        tauto
      subst hzj
      exact ⟨rfl, rfl⟩
  | none =>
    rw [if_neg (fun hcon => absurd hcon.1 (by decide))]
    rw [if_neg (fun hcon => absurd hcon.1 (by decide))]
    rw [if_neg (fun hcon => absurd hcon.1 (by decide))]
    rw [if_neg (fun hcon => absurd hcon.1 (by decide))]
    rw [if_neg (fun hcon => absurd hcon.1 (by decide))]
    rw [if_neg (fun hcon => absurd hcon.1 (by decide))]
    rw [if_neg (fun hcon => absurd hcon.1 (by decide))]
    rw [if_neg (fun hcon => absurd hcon.1 (by decide))]
    rw [if_neg (fun hcon => absurd hcon.1 (by decide))]
    have hdup : ∀ m ∈ p,
        shapeEqB ⟨Kind.int, none, none, v, 1, 0, 0⟩ m = false :=
      fun m hm => shapeEqB_new_of_matchNode (firstMatch_none hfm m hm)
    have hwq : wf (p ++ [(⟨Kind.int, none, none, v, 1, 0, 0⟩ : Node)]) = true :=
      wf_append hwf (wfShape_leaf_intro (Or.inl rfl) rfl rfl) (by simp) hdup
    refine ⟨p ++ [⟨Kind.int, none, none, v, 1, 0, 0⟩], p.length, rfl, ?_,
      shapesLE_append p _, by simp, hwq, ?_, ?_⟩
    · exact ⟨_, List.getElem?_concat_length p _, rfl, rfl, rfl, rfl⟩
    · intro j m hj hg
      have hj2 := (List.getElem?_eq_some.mp hg).1
      rw [List.length_append, List.length_singleton] at hj2
      have hje : j = p.length := by omega
      subst hje
      rw [List.getElem?_concat_length] at hg
      cases hg
      rfl
    · intro z nz hz hzk hzl hzr hzv
      exfalso
      have := firstMatch_none hfm nz (List.getElem?_mem hz)
      rw [matchNode] at this
      simp [hzk, hzl, hzr, hzv] at this

theorem mkMulTwo_char {p2 : Pool} (hwf2 : wf p2 = true) (fuel : Nat) {two x : Nat}
    {m2 nx2 : Node}
    (h2 : p2[two]? = some m2) (h2k : m2.kind = Kind.int) (h2v : m2.intValue = 2)
    (hx2 : p2[x]? = some nx2) (hxk2 : nx2.kind ≠ Kind.int)
    (hxr2 : ∀ rr, nx2.r = some rr → kindAt p2 (some rr) ≠ some Kind.int) :
    ∃ q i m, mk (fuel + 1) p2 Kind.mul (some two) (some x) 0 = some (q, i) ∧
      q[i]? = some m ∧ m.kind = Kind.mul ∧ m.l = some x ∧ m.r = some two ∧
      kindAt q (some two) = some Kind.int ∧ valAt q (some two) = 2 := by
  have hx_len : x < p2.length := (List.getElem?_eq_some.mp hx2).1
  have h2_len : two < p2.length := (List.getElem?_eq_some.mp h2).1
  have hcl : canonL p2 Kind.mul (some two) (some x) = some x := by
    unfold canonL
    rw [if_pos ⟨Or.inr rfl, by simp [kindAt, h2, h2k]⟩]
  have hcr : canonR p2 Kind.mul (some two) (some x) = some two := by
    unfold canonR
    rw [if_pos ⟨Or.inr rfl, by simp [kindAt, h2, h2k]⟩]
  have hgrand : ∀ kk : Kind, ¬(kindAt p2 (some x) = some kk ∧
      kindAt p2 (childR p2 (some x)) = some Kind.int) := by
    intro kk hcon
    cases hrr : nx2.r with
    | none =>
      have : childR p2 (some x) = none := by simp [childR, hx2, hrr]
      rw [this] at hcon
      simp [kindAt] at hcon
    | some rr =>
      have : childR p2 (some x) = some rr := by simp [childR, hx2, hrr]
      rw [this] at hcon
      exact hxr2 rr hrr hcon.2
  simp only [mk, hcl, hcr]
  cases hfm : firstMatch (matchNode Kind.mul (some x) (some two) 0) p2 with
  | some j =>
    obtain ⟨n, hn, hq⟩ := firstMatch_some hfm
    obtain ⟨hnk, hnl, hnr, hnv⟩ := matchNode_elim hq
    have hj : j < p2.length := (List.getElem?_eq_some.mp hn).1
    refine ⟨bumpShared p2 j, j, { n with shared := n.shared + 1 }, rfl, ?_,
      hnk, hnl, hnr, ?_, ?_⟩
    · rw [bumpShared_getElem]
      simp [hn]
    · rw [kindAt_of_shapeAgree (bumpShared_get? p2 j two)]
      simp [kindAt, h2, h2k]
    · rw [valAt_of_shapeAgree (bumpShared_get? p2 j two)]
      simp [valAt, h2, h2v]
  | none =>
    rw [if_neg (fun hcon => absurd hcon.1 (by decide))]
    rw [if_neg (fun hcon => absurd hcon.2.1 (by simp [kindAt, hx2, hxk2]))]
    rw [if_neg (fun hcon => absurd hcon.2.2 (by simp [valAt, h2, h2v]))]
    rw [if_neg (fun hcon => absurd hcon.2.2 (by simp [valAt, h2, h2v]))]
    rw [if_neg (fun hcon => absurd hcon.1 (by decide))]
    rw [if_neg (fun hcon => absurd hcon.1 (by decide))]
    rw [if_neg (fun hcon => absurd hcon.1 (by decide))]
    rw [if_neg (fun hcon => hgrand Kind.mul ⟨hcon.2.1, hcon.2.2⟩)]
    rw [if_neg (fun hcon => hgrand Kind.add ⟨hcon.2.2.1, hcon.2.2.2⟩)]
    refine ⟨p2 ++ [⟨Kind.mul, some x, some two, 0, 1, 0, 0⟩], p2.length,
      ⟨Kind.mul, some x, some two, 0, 1, 0, 0⟩, rfl,
      List.getElem?_concat_length p2 _, rfl, rfl, rfl, ?_, ?_⟩
    · rw [kindAt_append _ h2_len]
      simp [kindAt, h2, h2k]
    · rw [valAt_append _ h2_len]
      simp [valAt, h2, h2v]

/-
Claim theorems.
-/

/-- Claim C10.  Every rewrite `mk` performs is value-preserving: for any
well-formed pool, valid operand indices and environment, the node returned
by `mk('+', l, r, 0)` evaluates to `eval l + eval r` and the node returned
by `mk('*', l, r, 0)` evaluates to `eval l * eval r` — canonicalization,
interning, folding, and the algebraic rules never change the value. -/
theorem c10_mk_value_preserving (fuel : Nat) (p : Pool) (li ri : Nat)
    (q1 q2 : Pool) (i1 i2 : Nat)
    (hwf : wf p = true) (hli : li < p.length) (hri : ri < p.length) :
    (mk fuel p Kind.add (some li) (some ri) 0 = some (q1, i1) →
      ∀ env : Int → Int, evalA q1 env i1 = evalA p env li + evalA p env ri) ∧
    (mk fuel p Kind.mul (some li) (some ri) 0 = some (q2, i2) →
      ∀ env : Int → Int, evalA q2 env i2 = evalA p env li * evalA p env ri) := by
  constructor
  · intro hmk env
    have h := mk_main fuel p Kind.add (some li) (some ri) 0 q1 i1 hmk hwf
      ⟨⟨li, rfl, hli⟩, ⟨ri, rfl, hri⟩⟩
    have h4 := h.2.2.2 env
    simpa [semOf, evalO] using h4
  · intro hmk env
    have h := mk_main fuel p Kind.mul (some li) (some ri) 0 q2 i2 hmk hwf
      ⟨⟨li, rfl, hli⟩, ⟨ri, rfl, hri⟩⟩
    have h4 := h.2.2.2 env
    simpa [semOf, evalO] using h4

/-- Witness for C10 at a concrete pool (Name x, Name y) and the default
environment. -/
theorem c10_mk_value_preserving_witness :
    evalA wpool2add env0 2 = evalA wpool2 env0 0 + evalA wpool2 env0 1 ∧
    evalA wpool2mul env0 2 = evalA wpool2 env0 0 * evalA wpool2 env0 1 := by
  have h := c10_mk_value_preserving 9 wpool2 0 1 wpool2add wpool2mul 2 2
    (by decide) (by decide) (by decide)
  exact ⟨h.1 (by rfl) env0, h.2 (by rfl) env0⟩

/-- Claim C5.  Constant folding: building `Add(Int k1, Int k2)` on a
well-formed pool yields a single Int node with value `k1 + k2`, and
building `Mul(Int k1, Int k2)` yields an Int node with value `k1 * k2`;
at most one node is appended by such a call, and every appended node is an
Int node (no binary node is added to the pool). -/
theorem c5_constant_folding (fuel : Nat) (p : Pool) (a b : Nat) (na nb : Node)
    (hwf : wf p = true) (ha : p[a]? = some na) (hak : na.kind = Kind.int)
    (hb : p[b]? = some nb) (hbk : nb.kind = Kind.int) :
    (∃ q i, mk (fuel + 2) p Kind.add (some a) (some b) 0 = some (q, i) ∧
      (∃ m, q[i]? = some m ∧ m.kind = Kind.int ∧
        m.intValue = na.intValue + nb.intValue) ∧
      q.length ≤ p.length + 1 ∧
      (∀ j m, p.length ≤ j → q[j]? = some m → m.kind = Kind.int)) ∧
    (∃ q i, mk (fuel + 2) p Kind.mul (some a) (some b) 0 = some (q, i) ∧
      (∃ m, q[i]? = some m ∧ m.kind = Kind.int ∧
        m.intValue = na.intValue * nb.intValue) ∧
      q.length ≤ p.length + 1 ∧
      (∀ j m, p.length ≤ j → q[j]? = some m → m.kind = Kind.int)) := by
  have h2 : fuel + 2 = fuel + 1 + 1 := rfl
  rw [h2]
  constructor
  · have hcl : canonL p Kind.add (some a) (some b) = some b := by
      unfold canonL
      rw [if_pos ⟨Or.inl rfl, by simp [kindAt, ha, hak]⟩]
    have hcr : canonR p Kind.add (some a) (some b) = some a := by
      unfold canonR
      rw [if_pos ⟨Or.inl rfl, by simp [kindAt, ha, hak]⟩]
    have hfm := noStoredBinIntLeft hwf hb hbk (Or.inl rfl) (some a) (0 : Int)
    obtain ⟨q, i, hmk0, ⟨m, hm, hmk2, _, _, hmv⟩, _, hlen, _, hnew, _⟩ :=
      mkInt_char hwf fuel (valAt p (some b) + valAt p (some a))
    refine ⟨q, i, ?_, ⟨m, hm, hmk2, ?_⟩, hlen, hnew⟩
    · simp only [mk, hcl, hcr, hfm]
      rw [if_pos ⟨trivial, by simp [kindAt, hb, hbk], by simp [kindAt, ha, hak]⟩]
      exact hmk0
    · rw [hmv]
      simp [valAt, ha, hb]
      ring
  · have hcl : canonL p Kind.mul (some a) (some b) = some b := by
      unfold canonL
      rw [if_pos ⟨Or.inr rfl, by simp [kindAt, ha, hak]⟩]
    have hcr : canonR p Kind.mul (some a) (some b) = some a := by
      unfold canonR
      rw [if_pos ⟨Or.inr rfl, by simp [kindAt, ha, hak]⟩]
    have hfm := noStoredBinIntLeft hwf hb hbk (Or.inr rfl) (some a) (0 : Int)
    obtain ⟨q, i, hmk0, ⟨m, hm, hmk2, _, _, hmv⟩, _, hlen, _, hnew, _⟩ :=
      mkInt_char hwf fuel (valAt p (some b) * valAt p (some a))
    refine ⟨q, i, ?_, ⟨m, hm, hmk2, ?_⟩, hlen, hnew⟩
    · simp only [mk, hcl, hcr, hfm]
      rw [if_neg (fun hcon => absurd hcon.1 (by decide))]
      rw [if_pos ⟨trivial, by simp [kindAt, hb, hbk], by simp [kindAt, ha, hak]⟩]
      exact hmk0
    · rw [hmv]
      simp [valAt, ha, hb]
      ring

/-- Witness for C5 on the concrete pool with Int 0 and Int 1. -/
theorem c5_constant_folding_witness :
    (∃ q i, mk (7 + 2) wpool4 Kind.add (some 1) (some 2) 0 = some (q, i) ∧
      (∃ m, q[i]? = some m ∧ m.kind = Kind.int ∧ m.intValue = 0 + 1) ∧
      q.length ≤ wpool4.length + 1 ∧
      (∀ j m, wpool4.length ≤ j → q[j]? = some m → m.kind = Kind.int)) ∧
    (∃ q i, mk (7 + 2) wpool4 Kind.mul (some 1) (some 2) 0 = some (q, i) ∧
      (∃ m, q[i]? = some m ∧ m.kind = Kind.int ∧ m.intValue = 0 * 1) ∧
      q.length ≤ wpool4.length + 1 ∧
      (∀ j m, wpool4.length ≤ j → q[j]? = some m → m.kind = Kind.int)) :=
  c5_constant_folding 7 wpool4 1 2 ⟨Kind.int, none, none, 0, 1, 0, 0⟩
    ⟨Kind.int, none, none, 1, 1, 0, 0⟩ (by decide) rfl rfl rfl rfl

/-- Claim C4.  Algebraic identities hold unconditionally on a well-formed
pool: for any subtree `x` (literal, name, or compound) and the interned
literal nodes `z = Int 0` and `o = Int 1`, building `Mul(x, z)` returns the
interned Int 0 node `z` itself (bumping its share count), building
`Mul(x, o)` returns `x` itself, and building `Add(x, z)` returns `x`
itself. -/
theorem c4_algebraic_identities (fuel : Nat) (p : Pool) (x z o : Nat)
    (nx nz n1 : Node)
    (hwf : wf p = true) (hx : p[x]? = some nx)
    (hz : p[z]? = some nz) (hzk : nz.kind = Kind.int) (hzv : nz.intValue = 0)
    (ho : p[o]? = some n1) (hok : n1.kind = Kind.int) (hov : n1.intValue = 1) :
    mk (fuel + 2) p Kind.mul (some x) (some z) 0 = some (bumpShared p z, z) ∧
    (mk (fuel + 2) p Kind.mul (some x) (some o) 0).map Prod.snd = some x ∧
    (mk (fuel + 2) p Kind.add (some x) (some z) 0).map Prod.snd = some x := by
  have h2 : fuel + 2 = fuel + 1 + 1 := rfl
  obtain ⟨hzl, hzr⟩ := wfShape_leaf_elim (wf_shape hwf hz) (Or.inl hzk)
  obtain ⟨hol, hor⟩ := wfShape_leaf_elim (wf_shape hwf ho) (Or.inl hok)
  rw [h2]
  refine ⟨?_, ?_, ?_⟩
  · -- Mul(x, Int 0) reduces to the interned Int 0
    obtain ⟨q, i, hmk0, _, _, _, _, _, huniq⟩ := mkInt_char hwf fuel 0
    obtain ⟨hq, hi⟩ := huniq z nz hz hzk hzl hzr hzv
    by_cases hxk : nx.kind = Kind.int
    · have hcl : canonL p Kind.mul (some x) (some z) = some z := by
        unfold canonL
        rw [if_pos ⟨Or.inr rfl, by simp [kindAt, hx, hxk]⟩]
      have hcr : canonR p Kind.mul (some x) (some z) = some x := by
        unfold canonR
        rw [if_pos ⟨Or.inr rfl, by simp [kindAt, hx, hxk]⟩]
      have hfm := noStoredBinIntLeft hwf hz hzk (Or.inr rfl) (some x) (0 : Int)
      simp only [mk, hcl, hcr, hfm]
      rw [if_neg (fun hcon => absurd hcon.1 (by decide))]
      rw [if_pos ⟨trivial, by simp [kindAt, hz, hzk], by simp [kindAt, hx, hxk]⟩]
      rw [show valAt p (some z) * valAt p (some x) = 0 by simp [valAt, hz, hzv]]
      exact (show mk (fuel + 1) p Kind.int none none 0 =
        some (bumpShared p z, z) by rw [hmk0, hq, hi])
    · have hcl : canonL p Kind.mul (some x) (some z) = some x := by
        unfold canonL
        rw [if_neg (fun hcon => absurd hcon.2 (by simp [kindAt, hx, hxk]))]
      have hcr : canonR p Kind.mul (some x) (some z) = some z := by
        unfold canonR
        rw [if_neg (fun hcon => absurd hcon.2 (by simp [kindAt, hx, hxk]))]
      have hfm := noStoredMulInt01 hwf hz hzk (Or.inl hzv) (some x) (0 : Int)
      simp only [mk, hcl, hcr, hfm]
      rw [if_neg (fun hcon => absurd hcon.1 (by decide))]
      rw [if_neg (fun hcon => absurd hcon.2.1 (by simp [kindAt, hx, hxk]))]
      rw [if_pos ⟨trivial, by simp [kindAt, hz, hzk], by simp [valAt, hz, hzv]⟩]
      exact (show mk (fuel + 1) p Kind.int none none 0 =
        some (bumpShared p z, z) by rw [hmk0, hq, hi])
  · -- Mul(x, Int 1) reduces to x itself
    by_cases hxk : nx.kind = Kind.int
    · obtain ⟨hxl, hxr⟩ := wfShape_leaf_elim (wf_shape hwf hx) (Or.inl hxk)
      obtain ⟨q, i, hmk0, _, _, _, _, _, huniq⟩ := mkInt_char hwf fuel nx.intValue
      obtain ⟨hq, hi⟩ := huniq x nx hx hxk hxl hxr rfl
      have hcl : canonL p Kind.mul (some x) (some o) = some o := by
        unfold canonL
        rw [if_pos ⟨Or.inr rfl, by simp [kindAt, hx, hxk]⟩]
      have hcr : canonR p Kind.mul (some x) (some o) = some x := by
        unfold canonR
        rw [if_pos ⟨Or.inr rfl, by simp [kindAt, hx, hxk]⟩]
      have hfm := noStoredBinIntLeft hwf ho hok (Or.inr rfl) (some x) (0 : Int)
      simp only [mk, hcl, hcr, hfm]
      rw [if_neg (fun hcon => absurd hcon.1 (by decide))]
      rw [if_pos ⟨trivial, by simp [kindAt, ho, hok], by simp [kindAt, hx, hxk]⟩]
      rw [show valAt p (some o) * valAt p (some x) = nx.intValue by
        simp [valAt, ho, hov, hx]]
      exact (show (mk (fuel + 1) p Kind.int none none nx.intValue).map Prod.snd =
        some x by rw [hmk0]; simp [hi])
    · have hcl : canonL p Kind.mul (some x) (some o) = some x := by
        unfold canonL
        rw [if_neg (fun hcon => absurd hcon.2 (by simp [kindAt, hx, hxk]))]
      have hcr : canonR p Kind.mul (some x) (some o) = some o := by
        unfold canonR
        rw [if_neg (fun hcon => absurd hcon.2 (by simp [kindAt, hx, hxk]))]
      have hfm := noStoredMulInt01 hwf ho hok (Or.inr hov) (some x) (0 : Int)
      simp only [mk, hcl, hcr, hfm]
      rw [if_neg (fun hcon => absurd hcon.1 (by decide))]
      rw [if_neg (fun hcon => absurd hcon.2.1 (by simp [kindAt, hx, hxk]))]
      rw [if_neg (fun hcon => absurd hcon.2.2 (by simp [valAt, ho, hov]))]
      rw [if_pos ⟨trivial, by simp [kindAt, ho, hok], by simp [valAt, ho, hov]⟩]
      rfl
  · -- Add(x, Int 0) reduces to x itself
    by_cases hxk : nx.kind = Kind.int
    · obtain ⟨hxl, hxr⟩ := wfShape_leaf_elim (wf_shape hwf hx) (Or.inl hxk)
      obtain ⟨q, i, hmk0, _, _, _, _, _, huniq⟩ := mkInt_char hwf fuel nx.intValue
      obtain ⟨hq, hi⟩ := huniq x nx hx hxk hxl hxr rfl
      have hcl : canonL p Kind.add (some x) (some z) = some z := by
        unfold canonL
        rw [if_pos ⟨Or.inl rfl, by simp [kindAt, hx, hxk]⟩]
      have hcr : canonR p Kind.add (some x) (some z) = some x := by
        unfold canonR
        rw [if_pos ⟨Or.inl rfl, by simp [kindAt, hx, hxk]⟩]
      have hfm := noStoredBinIntLeft hwf hz hzk (Or.inl rfl) (some x) (0 : Int)
      simp only [mk, hcl, hcr, hfm]
      rw [if_pos ⟨trivial, by simp [kindAt, hz, hzk], by simp [kindAt, hx, hxk]⟩]
      rw [show valAt p (some z) + valAt p (some x) = nx.intValue by
        simp [valAt, hz, hzv, hx]]
      exact (show (mk (fuel + 1) p Kind.int none none nx.intValue).map Prod.snd =
        some x by rw [hmk0]; simp [hi])
    · have hcl : canonL p Kind.add (some x) (some z) = some x := by
        unfold canonL
        rw [if_neg (fun hcon => absurd hcon.2 (by simp [kindAt, hx, hxk]))]
      have hcr : canonR p Kind.add (some x) (some z) = some z := by
        unfold canonR
        rw [if_neg (fun hcon => absurd hcon.2 (by simp [kindAt, hx, hxk]))]
      have hfm := noStoredAddInt0 hwf hz hzk hzv (some x) (0 : Int)
      simp only [mk, hcl, hcr, hfm]
      rw [if_neg (fun hcon => absurd hcon.2.1 (by simp [kindAt, hx, hxk]))]
      rw [if_neg (fun hcon => absurd hcon.1 (by decide))]
      rw [if_neg (fun hcon => absurd hcon.1 (by decide))]
      rw [if_neg (fun hcon => absurd hcon.1 (by decide))]
      rw [if_pos ⟨trivial, by simp [kindAt, hz, hzk], by simp [valAt, hz, hzv]⟩]
      rfl

/-- Witness for C4 on the concrete pool (Name x, Int 0, Int 1). -/
theorem c4_algebraic_identities_witness :
    mk (7 + 2) wpool4 Kind.mul (some 0) (some 1) 0 =
      some (bumpShared wpool4 1, 1) ∧
    (mk (7 + 2) wpool4 Kind.mul (some 0) (some 2) 0).map Prod.snd = some 0 ∧
    (mk (7 + 2) wpool4 Kind.add (some 0) (some 1) 0).map Prod.snd = some 0 :=
  c4_algebraic_identities 7 wpool4 0 1 2 ⟨Kind.name, none, none, 120, 1, 0, 0⟩
    ⟨Kind.int, none, none, 0, 1, 0, 0⟩ ⟨Kind.int, none, none, 1, 1, 0, 0⟩
    (by decide) rfl rfl rfl rfl rfl rfl rfl

/-- Claim C6 (amended).  Self-CSE: on a well-formed pool, for every node `x`
that is not an Int literal and (if binary) whose right child is not an Int
literal, building `Add(x, x)` reduces to a Mul node whose left child is
`x` and whose right child is an interned `Int 2` — the canonicalized form
of `2 * x`.  For the source "x+x" the rewritten AST is `Mul(Name x, Int 2)`,
the unparse output is "(!x*2)" in the RISC-V variant and "(x*2)" in the
x86 variant, and both generated programs (and the tree-walking evaluation)
return 4 under the default environment. -/
theorem c6_self_cse_amended (fuel : Nat) (p : Pool) (x : Nat) (nx : Node)
    (hwf : wf p = true) (hx : p[x]? = some nx) (hxk : nx.kind ≠ Kind.int)
    (hxr : ∀ rr, nx.r = some rr → kindAt p (some rr) ≠ some Kind.int) :
    (∃ q i m two, mk (fuel + 2) p Kind.add (some x) (some x) 0 = some (q, i) ∧
      q[i]? = some m ∧ m.kind = Kind.mul ∧ m.l = some x ∧ m.r = some two ∧
      kindAt q (some two) = some Kind.int ∧ valAt q (some two) = 2) ∧
    (parseRV "x+x").root = some 2 ∧
    kindAt (parseRV "x+x").pool (some 2) = some Kind.mul ∧
    childL (parseRV "x+x").pool (some 2) = some 0 ∧
    kindAt (parseRV "x+x").pool (some 0) = some Kind.name ∧
    childR (parseRV "x+x").pool (some 2) = some 1 ∧
    valAt (parseRV "x+x").pool (some 1) = 2 ∧
    unparseN 99 (parseRV "x+x").pool (parseRV "x+x").root = "(!x*2)" ∧
    unparseNX 99 (parseX "x+x").pool (parseX "x+x").root = "(x*2)" ∧
    runB "x+x" env0 = some 4 ∧
    runA "x+x" env0 = some 4 ∧
    runEval "x+x" env0 = some 4 := by
  refine ⟨?_, rfl, rfl, rfl, rfl, rfl, rfl, rfl, rfl, rfl, rfl, rfl⟩
  have hx_len : x < p.length := (List.getElem?_eq_some.mp hx).1
  obtain ⟨p2, two, hmk2, ⟨m2, hm2g, hm2k, hm2l, hm2r, hm2v⟩, hle2, hlen2,
    hwf2, hnew2, huniq2⟩ := mkInt_char hwf fuel 2
  obtain ⟨nx2, nx0, hx2, hx0, hsx⟩ := get?_lt_of_shapesLE hle2 hx_len
  rw [hx] at hx0
  have hnx0 : nx0 = nx := (Option.some.inj hx0).symm
  rw [hnx0] at hsx
  have hk2 := (shapeOf_eq_iff.mp hsx).1
  have hr2 := (shapeOf_eq_iff.mp hsx).2.2.1
  have hxr2 : ∀ rr, nx2.r = some rr → kindAt p2 (some rr) ≠ some Kind.int := by
    intro rr hrr
    rw [hr2] at hrr
    have hrlt : rr < x := ((childrenLT_of_wf hwf) x nx hx).2 rr hrr
    rw [kindAt_of_shapesLE hle2 (by omega)]
    exact hxr rr hrr
  obtain ⟨q, i, m, hmkq, hqg, hqk, hql, hqr, hqtwo, hqval⟩ :=
    mkMulTwo_char hwf2 fuel hm2g hm2k hm2v hx2 (by rw [hk2]; exact hxk) hxr2
  refine ⟨q, i, m, two, ?_, hqg, hqk, hql, hqr, hqtwo, hqval⟩
  have hcl : canonL p Kind.add (some x) (some x) = some x := by
    unfold canonL
    rw [if_neg (fun hcon => absurd hcon.2 (by simp [kindAt, hx, hxk]))]
  have hcr : canonR p Kind.add (some x) (some x) = some x := by
    unfold canonR
    rw [if_neg (fun hcon => absurd hcon.2 (by simp [kindAt, hx, hxk]))]
  have hfm := noStoredAddSelf hwf x 0
  have hstep : mk (fuel + 1 + 1) p Kind.add (some x) (some x) 0 =
      mk (fuel + 1) p2 Kind.mul (some two) (some x) 0 := by
    conv_lhs => rw [mk]
    simp only [hcl, hcr, hfm]
    rw [if_neg (fun hcon => absurd hcon.2.1 (by simp [kindAt, hx, hxk]))]
    rw [if_neg (fun hcon => absurd hcon.1 (by decide))]
    rw [if_neg (fun hcon => absurd hcon.1 (by decide))]
    rw [if_neg (fun hcon => absurd hcon.1 (by decide))]
    rw [if_neg (fun hcon => absurd hcon.2.1 (by simp [kindAt, hx, hxk]))]
    rw [if_pos (by simp)]
    rw [hmk2]
  have h2 : fuel + 2 = fuel + 1 + 1 := rfl
  rw [h2, hstep]
  exact hmkq

/-- Witness for C6 on the one-node pool containing `Name x`. -/
theorem c6_self_cse_amended_witness :
    ∃ q i m two, mk (7 + 2) [(⟨Kind.name, none, none, 120, 1, 0, 0⟩ : Node)]
      Kind.add (some 0) (some 0) 0 = some (q, i) ∧
      q[i]? = some m ∧ m.kind = Kind.mul ∧ m.l = some 0 ∧ m.r = some two ∧
      kindAt q (some two) = some Kind.int ∧ valAt q (some two) = 2 :=
  (c6_self_cse_amended 7 [⟨Kind.name, none, none, 120, 1, 0, 0⟩] 0
    ⟨Kind.name, none, none, 120, 1, 0, 0⟩ (by decide) rfl (by decide)
    (fun rr hrr => by cases hrr)).1

/-- Claim C1 (code_bug evidence).  Codegen equivalence fails: for the AST
`Int 2048` (source "2048"), Code Generator B (RISC-V) emits a bare
`addi` whose 12-bit immediate field 2048 is sign-extended by the hardware,
so the generated code returns -2048 while Code Generator A (x86) and the
tree-walking evaluation both return 2048.  The C comments document the
intended `%hi`/`%lo` split, which would require rounding the high part;
`intValue & 0xFFFFF000` does not. -/
theorem c1_riscv_large_imm_diverges :
    runB "2048" env0 = some (-2048) ∧
    runA "2048" env0 = some 2048 ∧
    runEval "2048" env0 = some 2048 := by
  refine ⟨?_, ?_, ?_⟩ <;> rfl

/-- Claim C3 (code_bug evidence).  For source "x+x" the final AST is
`Mul(Name x, Int 2)` (root index 2).  Node 0 (`Name x`) is reachable from
the root and referenced by exactly one edge of the final AST, yet its
`shared` count is 2: the `x+x -> 2*x` rewrite discarded one counted
reference, so the count does not equal the number of edges. -/
theorem c3_share_count_exceeds_edges :
    (parseRV "x+x").root = some 2 ∧
    kindAt (parseRV "x+x").pool (some 0) = some Kind.name ∧
    0 ∈ reachSet (parseRV "x+x").pool 2 ∧
    sharedAt (parseRV "x+x").pool 0 = 2 ∧
    edgeCount (parseRV "x+x").pool 2 0 = 1 := by
  refine ⟨?_, ?_, ?_, ?_, ?_⟩ <;> first | rfl | decide

/-- Claim C9 (code_bug evidence).  For the input "x+" the parser does NOT
end in the ERROR state: `pFactor` has no case for END_OF_FILE, leaves its
result uninitialised (modelled as `none`), and the final lookahead is 0,
so `main`'s `if (lookahead)` syntax-error branch is not taken and no
syntax error is reported.  By contrast "(x" does reach the terminal ERROR
state (lookahead 1), which `main` reports. -/
theorem c9_trailing_op_not_reported :
    (parseRV "x+").look = 0 ∧
    (parseRV "x+").root = none ∧
    (parseRV "(x").look = 1 := by
  refine ⟨?_, ?_, ?_⟩ <;> rfl

/-- Claim C2 (counterexample).  In the x86 variant an intern hit executes
`p->shared = 1`, not an increment: starting from the parse of "x+1",
building the identical `(Add, x, 1, 0)` tuple twice more returns pool
entry 2 both times, yet its shared field is 1 after the first hit and
still 1 (not 2) after the second — so the hit does not increment the
count, and two independent builds do not make it reach 2. -/
theorem c2_x86_hit_sets_flag_to_one :
    (mkX 9 c2p1 Kind.add (some 0) (some 1) 0).map Prod.snd = some 2 ∧
    (mkX 9 c2p2 Kind.add (some 0) (some 1) 0).map Prod.snd = some 2 ∧
    sharedAtX c2p1 2 = 0 ∧
    sharedAtX c2p2 2 = 1 ∧
    sharedAtX c2p3 2 = 1 := by
  refine ⟨?_, ?_, ?_, ?_, ?_⟩ <;> rfl

/-- Claim C6 (counterexample).  Three concrete failures of the claim:
building `Add(x, x)` for the literal `x = Int 3` constant-folds to the
node `Int 6` (kind int, not a Mul); for `x = Mul(y, Int 3)` the
reassociation rule produces `Mul(Name y, Int 6)`, whose left child is not
`x`; and for the source "x+x" the unparse output is "(!x*2)" in the
RISC-V variant and "(x*2)" in the x86 variant, not "(2*x)". -/
theorem c6_self_cse_fails_on_literals :
    ((mk 9 (parseRV "3").pool Kind.add (some 0) (some 0) 0).map
      fun s => kindAt s.1 (some s.2)) = some (some Kind.int) ∧
    ((mk 9 (parseRV "y*3").pool Kind.add (some 2) (some 2) 0).map
      fun s => (s.1[s.2]?).map Node.l) = some (some (some 0)) ∧
    unparseN 99 (parseRV "x+x").pool (parseRV "x+x").root = "(!x*2)" ∧
    unparseNX 99 (parseX "x+x").pool (parseX "x+x").root = "(x*2)" := by
  refine ⟨?_, ?_, ?_, ?_⟩ <;> rfl

/-- Claim C7 (counterexample).  Code Generator A re-emits leaf loads: for
the source "x*x" the node `Name x` (pool entry 0) is referenced by two
edges of the final AST, and the emitted code contains the environment
load of x twice — the leaf is compiled once per reference, not at most
once. -/
theorem c7_genA_recompiles_leaves :
    (parseX "x*x").root = some 1 ∧
    ((parseX "x*x").pool[1]?).map NodeX.l = some (some 0) ∧
    ((parseX "x*x").pool[1]?).map NodeX.r = some (some 0) ∧
    (codegenA 99 ⟨(parseX "x*x").pool, 0, []⟩ 1).map
      (fun s => s.code.count (InstrA.movEnv 120)) = some 2 := by
  refine ⟨?_, ?_, ?_, ?_⟩ <;> rfl

theorem firstMatchX_some {q : NodeX → Bool} :
    ∀ {p : PoolX} {i : Nat}, firstMatchX q p = some i →
      ∃ n, p[i]? = some n ∧ q n = true := by
  intro p
  induction p with
  | nil => intro i h; simp [firstMatchX] at h
  | cons a as ih =>
    intro i h
    by_cases ha : q a
    · simp [firstMatchX, ha] at h
      subst h
      exact ⟨a, by simp, ha⟩
    · simp [firstMatchX, ha] at h
      cases hm : firstMatchX q as with
      | none => rw [hm] at h; simp at h
      | some j =>
        rw [hm] at h
        simp at h
        obtain ⟨n, hn, hq⟩ := ih hm
        subst h
        exact ⟨n, by simpa [List.getElem?_cons_succ] using hn, hq⟩

theorem setSharedX_length (p : PoolX) (i : Nat) :
    (setSharedX p i).length = p.length := by
  unfold setSharedX
  cases p[i]? <;> simp

theorem setSharedX_getElem (p : PoolX) (i j : Nat) :
    (setSharedX p i)[j]? =
      if i = j then (p[j]?).map (fun n => { n with shared := 1 })
      else p[j]? := by
  unfold setSharedX
  cases hg : p[i]? with
  | none =>
    by_cases hij : i = j
    · subst hij
      rw [hg]
      simp
    · simp [hij]
  | some n =>
    rw [List.getElem?_set]
    by_cases hij : i = j
    · subst hij
      have hlt : i < p.length := (List.getElem?_eq_some.mp hg).1
      simp [hlt, hg]
    · simp [hij]

theorem bindE_error {α β : Type} (e : String) (f : α → Except String β) :
    (Except.error e : Except String α) >>= f = Except.error e := rfl

theorem bindE_ok {α β : Type} (a : α) (f : α → Except String β) :
    (Except.ok a : Except String α) >>= f = f a := rfl

theorem mapE_error {α β : Type} (e : String) (g : α → β) :
    g <$> (Except.error e : Except String α) = Except.error e := rfl

theorem mapE_ok {α β : Type} (a : α) (g : α → β) :
    g <$> (Except.ok a : Except String α) = Except.ok (g a) := rfl

theorem allocB_ok {st st1 : BState} {t : Nat} :
    allocB st t = Except.ok st1 → st.nextFree ≤ st.regPoll.length →
    st1.regPoll = st.regPoll ∧ st1.nextFree ≤ st1.regPoll.length := by
  unfold allocB
  cases hn : st.pool[t]? with
  | none => intro h; cases h
  | some n =>
    simp only []
    by_cases ha : n.alloc ≠ 0
    · rw [if_pos ha]
      intro h hinv
      injection h with h2
      subst h2
      exact ⟨rfl, hinv⟩
    · rw [if_neg ha]
      by_cases hlt : st.nextFree < st.regPoll.length
      · rw [if_pos hlt]
        intro h _
        injection h with h2
        subst h2
        exact ⟨rfl, hlt⟩
      · rw [if_neg hlt]
        intro h
        cases h

theorem useB_ok {st st2 : BState} {t r : Nat} :
    useB st t = Except.ok (st2, r) →
    st2.regPoll.length = st.regPoll.length ∧ st2.nextFree ≤ st.nextFree := by
  unfold useB
  cases hn : st.pool[t]? with
  | none => intro h; cases h
  | some n =>
    simp only []
    by_cases h0 : n.shared = 0
    · rw [if_pos h0]; intro h; cases h
    · rw [if_neg h0]
      by_cases h1 : n.shared - 1 = 0
      · rw [if_pos h1]
        by_cases h2 : st.nextFree = 0
        · rw [if_pos h2]; intro h; cases h
        · rw [if_neg h2]
          intro h
          injection h with h3
          injection h3 with h4 h5
          subst h4
          constructor
          · simp
          · simp
      · rw [if_neg h1]
        intro h
        injection h with h3
        injection h3 with h4 h5
        subst h4
        exact ⟨rfl, le_refl _⟩

theorem codegenB_invariant :
    ∀ fuel (st : BState) (t : Nat) (st2 : BState),
      st.nextFree ≤ st.regPoll.length →
      codegenB fuel st t = Except.ok st2 →
      st2.nextFree ≤ st2.regPoll.length ∧
      st2.regPoll.length = st.regPoll.length := by
  intro fuel
  induction fuel with
  | zero => intro st t st2 _ h; cases h
  | succ fuel ih =>
    intro st t st2 hinv
    rw [codegenB]
    cases hn : st.pool[t]? with
    | none => intro h; cases h
    | some n =>
      simp only []
      by_cases hr : n.reg ≠ 0
      · rw [if_pos hr]
        intro h
        injection h with h2
        subst h2
        exact ⟨hinv, rfl⟩
      · rw [if_neg hr]
        cases hk : n.kind with
        | int =>
          cases hal : allocB st t with
          | error e => intro h; simp [hal, bindE_error, bindE_ok, mapE_error, mapE_ok] at h
          | ok st1 =>
            obtain ⟨he, hi⟩ := allocB_ok hal hinv
            by_cases hhi : Int.land n.intValue 0xFFFFF000 ≠ 0
            · simp only [hal, bindE_error, bindE_ok, mapE_error, mapE_ok, if_pos hhi]
              intro h
              injection h with h2
              subst h2
              exact ⟨by simpa [emitB] using hi, by simp [emitB, he]⟩
            · simp only [hal, bindE_error, bindE_ok, mapE_error, mapE_ok, if_neg hhi]
              intro h
              injection h with h2
              subst h2
              exact ⟨by simpa [emitB] using hi, by simp [emitB, he]⟩
        | name =>
          cases hal : allocB st t with
          | error e => intro h; simp [hal, bindE_error, bindE_ok, mapE_error, mapE_ok] at h
          | ok st1 =>
            obtain ⟨he, hi⟩ := allocB_ok hal hinv
            simp only [hal, bindE_error, bindE_ok, mapE_error, mapE_ok]
            intro h
            injection h with h2
            subst h2
            exact ⟨by simpa [emitB] using hi, by simp [emitB, he]⟩
        | add =>
          cases hnl : n.l with
          | none => intro h; cases h
          | some li =>
            cases hnr : n.r with
            | none => intro h; cases h
            | some ri =>
              cases hc1 : codegenB fuel st li with
              | error e => intro h; simp [hc1, bindE_error, bindE_ok, mapE_error, mapE_ok] at h
              | ok st1 =>
                obtain ⟨hi1, he1⟩ := ih st li st1 hinv hc1
                cases hc2 : codegenB fuel st1 ri with
                | error e => intro h; simp [hc1, hc2, bindE_error, bindE_ok, mapE_error, mapE_ok] at h
                | ok stb =>
                  obtain ⟨hi2, he2⟩ := ih st1 ri stb hi1 hc2
                  cases hu1 : useB stb ri with
                  | error e => intro h; simp [hc1, hc2, hu1, bindE_error, bindE_ok, mapE_error, mapE_ok] at h
                  | ok pr1 =>
                    obtain ⟨st3, r1⟩ := pr1
                    obtain ⟨he3, hf3⟩ := useB_ok hu1
                    cases hu2 : useB st3 li with
                    | error e =>
                      intro h; simp [hc1, hc2, hu1, hu2, bindE_error, bindE_ok, mapE_error, mapE_ok] at h
                    | ok pr2 =>
                      obtain ⟨st4, r2⟩ := pr2
                      obtain ⟨he4, hf4⟩ := useB_ok hu2
                      have hi4 : st4.nextFree ≤ st4.regPoll.length := by omega
                      cases hal : allocB st4 t with
                      | error e =>
                        intro h; simp [hc1, hc2, hu1, hu2, hal, bindE_error, bindE_ok, mapE_error, mapE_ok] at h
                      | ok st5 =>
                        obtain ⟨he5, hi5⟩ := allocB_ok hal hi4
                        simp only [hc1, hc2, hu1, hu2, hal, bindE_error, bindE_ok, mapE_error, mapE_ok]
                        intro h
                        injection h with h2
                        subst h2
                        constructor
                        · simpa [emitB] using hi5
                        · simp only [emitB]
                          rw [he5]
                          omega
        | mul =>
          cases hnl : n.l with
          | none => intro h; cases h
          | some li =>
            cases hnr : n.r with
            | none => intro h; cases h
            | some ri =>
              cases hc1 : codegenB fuel st li with
              | error e => intro h; simp [hc1, bindE_error, bindE_ok, mapE_error, mapE_ok] at h
              | ok st1 =>
                obtain ⟨hi1, he1⟩ := ih st li st1 hinv hc1
                cases hc2 : codegenB fuel st1 ri with
                | error e => intro h; simp [hc1, hc2, bindE_error, bindE_ok, mapE_error, mapE_ok] at h
                | ok stb =>
                  obtain ⟨hi2, he2⟩ := ih st1 ri stb hi1 hc2
                  cases hu1 : useB stb ri with
                  | error e => intro h; simp [hc1, hc2, hu1, bindE_error, bindE_ok, mapE_error, mapE_ok] at h
                  | ok pr1 =>
                    obtain ⟨st3, r1⟩ := pr1
                    obtain ⟨he3, hf3⟩ := useB_ok hu1
                    cases hu2 : useB st3 li with
                    | error e =>
                      intro h; simp [hc1, hc2, hu1, hu2, bindE_error, bindE_ok, mapE_error, mapE_ok] at h
                    | ok pr2 =>
                      obtain ⟨st4, r2⟩ := pr2
                      obtain ⟨he4, hf4⟩ := useB_ok hu2
                      have hi4 : st4.nextFree ≤ st4.regPoll.length := by omega
                      cases hal : allocB st4 t with
                      | error e =>
                        intro h; simp [hc1, hc2, hu1, hu2, hal, bindE_error, bindE_ok, mapE_error, mapE_ok] at h
                      | ok st5 =>
                        obtain ⟨he5, hi5⟩ := allocB_ok hal hi4
                        simp only [hc1, hc2, hu1, hu2, hal, bindE_error, bindE_ok, mapE_error, mapE_ok]
                        intro h
                        injection h with h2
                        subst h2
                        constructor
                        · simpa [emitB] using hi5
                        · simp only [emitB]
                          rw [he5]
                          omega

theorem setReg_length (p : Pool) (t r : Nat) : (setReg p t r).length = p.length := by
  unfold setReg
  cases p[t]? <;> simp

theorem setReg_getElem (p : Pool) (t r j : Nat) :
    (setReg p t r)[j]? =
      if t = j then (p[j]?).map (fun n => { n with reg := r }) else p[j]? := by
  unfold setReg
  cases hg : p[t]? with
  | none =>
    by_cases hij : t = j
    · subst hij
      rw [hg]
      simp
    · simp [hij]
  | some n =>
    rw [List.getElem?_set]
    by_cases hij : t = j
    · subst hij
      have hlt : t < p.length := (List.getElem?_eq_some.mp hg).1
      simp [hlt, hg]
    · simp [hij]

theorem decShared_length (p : Pool) (t : Nat) : (decShared p t).length = p.length := by
  unfold decShared
  cases p[t]? <;> simp

theorem decShared_getElem (p : Pool) (t j : Nat) :
    (decShared p t)[j]? =
      if t = j then (p[j]?).map (fun n => { n with shared := n.shared - 1 })
      else p[j]? := by
  unfold decShared
  cases hg : p[t]? with
  | none =>
    by_cases hij : t = j
    · subst hij
      rw [hg]
      simp
    · simp [hij]
  | some n =>
    rw [List.getElem?_set]
    by_cases hij : t = j
    · subst hij
      have hlt : t < p.length := (List.getElem?_eq_some.mp hg).1
      simp [hlt, hg]
    · simp [hij]

theorem pollPos_congr {st1 st : BState} (he : st1.regPoll = st.regPoll)
    (hp : pollPos st) : pollPos st1 :=
  fun x hx => hp x (he ▸ hx)

theorem regsPreserved_refl (p : Pool) : regsPreserved p p :=
  ⟨rfl, fun _ m hm => ⟨m, hm, rfl, fun _ => rfl⟩⟩

theorem regsPreserved_trans {p q s : Pool} (h1 : regsPreserved p q)
    (h2 : regsPreserved q s) : regsPreserved p s := by
  refine ⟨h2.1.trans h1.1, ?_⟩
  intro j m hm
  obtain ⟨m2, hm2, ha2, hr2⟩ := h1.2 j m hm
  obtain ⟨m3, hm3, ha3, hr3⟩ := h2.2 j m2 hm2
  refine ⟨m3, hm3, ha3.trans ha2, ?_⟩
  intro hr
  have h4 : m2.reg = m.reg := hr2 hr
  have h5 : m2.reg ≠ 0 := by rw [h4]; exact hr
  exact (hr3 h5).trans h4

theorem regsPreserved_of_except {p q : Pool} {t : Nat}
    (hlen : q.length = p.length)
    (hne : ∀ j, j ≠ t → q[j]? = p[j]?)
    (ht : ∀ n, p[t]? = some n →
      ∃ m2, q[t]? = some m2 ∧ m2.alloc = n.alloc ∧ m2.reg = n.reg) :
    regsPreserved p q := by
  refine ⟨hlen, ?_⟩
  intro j m hm
  by_cases hj : j = t
  · subst hj
    obtain ⟨m2, hm2, ha, hr⟩ := ht m hm
    exact ⟨m2, hm2, ha, fun _ => hr⟩
  · exact ⟨m, (hne j hj).trans hm, rfl, fun _ => rfl⟩

theorem allocB_marks {st st1 : BState} {t : Nat} :
    allocB st t = Except.ok st1 → pollPos st →
    st1.regPoll = st.regPoll ∧
    st1.pool.length = st.pool.length ∧
    (∀ j, j ≠ t → st1.pool[j]? = st.pool[j]?) ∧
    ∀ n, st.pool[t]? = some n →
      ∃ m2, st1.pool[t]? = some m2 ∧ m2.alloc = n.alloc ∧ m2.reg ≠ 0 ∧
        (n.alloc ≠ 0 → m2.reg = n.alloc) := by
  unfold allocB
  cases hn : st.pool[t]? with
  | none => intro h; cases h
  | some n =>
    simp only []
    by_cases ha : n.alloc ≠ 0
    · rw [if_pos ha]
      intro h _
      injection h with h2
      subst h2
      refine ⟨rfl, by simp [setReg_length], ?_, ?_⟩
      · intro j hj
        simp [setReg_getElem, Ne.symm hj]
      · intro n0 hn0
        injection hn0 with hn0
        subst hn0
        refine ⟨{ n with reg := n.alloc }, ?_, rfl, ha, fun _ => rfl⟩
        simp [setReg_getElem, hn]
    · rw [if_neg ha]
      by_cases hlt : st.nextFree < st.regPoll.length
      · rw [if_pos hlt]
        intro h hp
        injection h with h2
        subst h2
        have hv : st.regPoll[st.nextFree]? = some st.regPoll[st.nextFree] :=
          List.getElem?_eq_getElem hlt
        have hvne : st.regPoll[st.nextFree] ≠ 0 :=
          hp _ (List.getElem_mem hlt)
        refine ⟨rfl, by simp [setReg_length], ?_, ?_⟩
        · intro j hj
          simp [setReg_getElem, Ne.symm hj]
        · intro n0 hn0
          injection hn0 with hn0
          subst hn0
          refine ⟨{ n with reg := (st.regPoll[st.nextFree]?).getD 0 }, ?_, rfl, ?_, ?_⟩
          · simp [setReg_getElem, hn]
          · rw [hv]
            simpa using hvne
          · intro hA
            exact absurd hA ha
      · rw [if_neg hlt]
        intro h
        cases h

theorem useB_marks {st st2 : BState} {t r : Nat} :
    useB st t = Except.ok (st2, r) → pollPos st →
    (∀ n, st.pool[t]? = some n → n.reg ≠ 0) →
    pollPos st2 ∧
    st2.pool.length = st.pool.length ∧
    (∀ j, j ≠ t → st2.pool[j]? = st.pool[j]?) ∧
    ∀ n, st.pool[t]? = some n →
      ∃ m2, st2.pool[t]? = some m2 ∧ m2.alloc = n.alloc ∧ m2.reg = n.reg := by
  unfold useB
  cases hn : st.pool[t]? with
  | none => intro h; cases h
  | some n =>
    simp only []
    by_cases h0 : n.shared = 0
    · rw [if_pos h0]
      intro h
      cases h
    · rw [if_neg h0]
      by_cases h1 : n.shared - 1 = 0
      · rw [if_pos h1]
        by_cases h2 : st.nextFree = 0
        · rw [if_pos h2]
          intro h
          cases h
        · rw [if_neg h2]
          intro h hp hr
          injection h with h3
          injection h3 with h4 h5
          subst h4
          refine ⟨?_, by simp [decShared_length], ?_, ?_⟩
          · intro x hx
            rcases List.mem_or_eq_of_mem_set hx with hx | hx
            · exact hp x hx
            · subst hx
              exact hr n rfl
          · intro j hj
            simp [decShared_getElem, Ne.symm hj]
          · intro n0 hn0
            injection hn0 with hn0
            subst hn0
            exact ⟨{ n with shared := n.shared - 1 },
              by simp [decShared_getElem, hn], rfl, rfl⟩
      · rw [if_neg h1]
        intro h hp hr
        injection h with h3
        injection h3 with h4 h5
        subst h4
        refine ⟨hp, by simp [decShared_length], ?_, ?_⟩
        · intro j hj
          simp [decShared_getElem, Ne.symm hj]
        · intro n0 hn0
          injection hn0 with hn0
          subst hn0
          exact ⟨{ n with shared := n.shared - 1 },
            by simp [decShared_getElem, hn], rfl, rfl⟩

theorem codegenB_ok_entry {fuel : Nat} {st st2 : BState} {t : Nat} :
    codegenB fuel st t = Except.ok st2 → ∃ n, st.pool[t]? = some n := by
  cases fuel with
  | zero => intro h; cases h
  | succ fuel =>
    rw [codegenB]
    cases hn : st.pool[t]? with
    | none => intro h; cases h
    | some n => intro _; exact ⟨n, rfl⟩

theorem codegenB_marks :
    ∀ fuel (st : BState) (t : Nat) (st2 : BState),
      pollPos st →
      codegenB fuel st t = Except.ok st2 →
      pollPos st2 ∧
      regsPreserved st.pool st2.pool ∧
      ∀ n, st.pool[t]? = some n →
        ∃ m2, st2.pool[t]? = some m2 ∧ m2.reg ≠ 0 ∧
          (n.reg = 0 → n.alloc ≠ 0 → m2.reg = n.alloc) := by
  intro fuel
  induction fuel with
  | zero => intro st t st2 _ h; cases h
  | succ fuel ih =>
    intro st t st2 hp
    rw [codegenB]
    cases hn : st.pool[t]? with
    | none => intro h; cases h
    | some n =>
      simp only []
      by_cases hr : n.reg ≠ 0
      · rw [if_pos hr]
        intro h
        injection h with h2
        subst h2
        refine ⟨hp, regsPreserved_refl _, ?_⟩
        intro n0 hn0
        injection hn0 with hn0
        subst hn0
        exact ⟨n, hn, hr, fun h0 => absurd h0 hr⟩
      · rw [if_neg hr]
        have hr0 : n.reg = 0 := by simpa using hr
        cases hk : n.kind with
        | int =>
          cases hal : allocB st t with
          | error e =>
            intro h
            simp [hal, bindE_error, bindE_ok, mapE_error, mapE_ok] at h
          | ok st1 =>
            obtain ⟨hpoll, hlen, hne, hT⟩ := allocB_marks hal hp
            obtain ⟨m2, hm2, halloc, hreg, hpin⟩ := hT n hn
            have hfin : pollPos st1 ∧ regsPreserved st.pool st1.pool ∧
                (∀ n0 : Node, (some n : Option Node) = some n0 →
                  ∃ m9, st1.pool[t]? = some m9 ∧ m9.reg ≠ 0 ∧
                    (n0.reg = 0 → n0.alloc ≠ 0 → m9.reg = n0.alloc)) := by
              refine ⟨pollPos_congr hpoll hp, ⟨hlen, ?_⟩, ?_⟩
              · intro j m hm
                by_cases hj : j = t
                · subst hj
                  rw [hn] at hm
                  injection hm with hm
                  subst hm
                  exact ⟨m2, hm2, halloc, fun hrg => absurd hr0 hrg⟩
                · exact ⟨m, (hne j hj).trans hm, rfl, fun _ => rfl⟩
              · intro n0 hn0
                injection hn0 with hn0
                subst hn0
                exact ⟨m2, hm2, hreg, fun _ hA => hpin hA⟩
            by_cases hhi : Int.land n.intValue 0xFFFFF000 ≠ 0
            · simp only [hal, bindE_error, bindE_ok, mapE_error, mapE_ok, if_pos hhi]
              intro h
              injection h with h2
              subst h2
              exact hfin
            · simp only [hal, bindE_error, bindE_ok, mapE_error, mapE_ok, if_neg hhi]
              intro h
              injection h with h2
              subst h2
              exact hfin
        | name =>
          cases hal : allocB st t with
          | error e =>
            intro h
            simp [hal, bindE_error, bindE_ok, mapE_error, mapE_ok] at h
          | ok st1 =>
            obtain ⟨hpoll, hlen, hne, hT⟩ := allocB_marks hal hp
            obtain ⟨m2, hm2, halloc, hreg, hpin⟩ := hT n hn
            simp only [hal, bindE_error, bindE_ok, mapE_error, mapE_ok]
            intro h
            injection h with h2
            subst h2
            refine ⟨pollPos_congr hpoll hp, ⟨hlen, ?_⟩, ?_⟩
            · intro j m hm
              by_cases hj : j = t
              · subst hj
                rw [hn] at hm
                injection hm with hm
                subst hm
                exact ⟨m2, hm2, halloc, fun hrg => absurd hr0 hrg⟩
              · exact ⟨m, (hne j hj).trans hm, rfl, fun _ => rfl⟩
            · intro n0 hn0
              injection hn0 with hn0
              subst hn0
              exact ⟨m2, hm2, hreg, fun _ hA => hpin hA⟩
        | add =>
          cases hnl : n.l with
          | none => intro h; cases h
          | some li =>
            cases hnr : n.r with
            | none => intro h; cases h
            | some ri =>
              cases hc1 : codegenB fuel st li with
              | error e =>
                intro h
                simp [hc1, bindE_error, bindE_ok, mapE_error, mapE_ok] at h
              | ok st1 =>
                obtain ⟨hp1, hR1, hM1⟩ := ih st li st1 hp hc1
                cases hc2 : codegenB fuel st1 ri with
                | error e =>
                  intro h
                  simp [hc1, hc2, bindE_error, bindE_ok, mapE_error, mapE_ok] at h
                | ok stb =>
                  obtain ⟨hp2, hR2, hM2⟩ := ih st1 ri stb hp1 hc2
                  cases hu1 : useB stb ri with
                  | error e =>
                    intro h
                    simp [hc1, hc2, hu1, bindE_error, bindE_ok, mapE_error,
                      mapE_ok] at h
                  | ok pr1 =>
                    obtain ⟨st3, r1⟩ := pr1
                    obtain ⟨nri, hnri⟩ := codegenB_ok_entry hc2
                    obtain ⟨mri, hmri, hmrireg, _⟩ := hM2 nri hnri
                    have hriB : ∀ n9, stb.pool[ri]? = some n9 → n9.reg ≠ 0 := by
                      intro n9 h9
                      rw [hmri] at h9
                      injection h9 with h9
                      subst h9
                      exact hmrireg
                    obtain ⟨hp3, hlen3, hne3, hT3⟩ := useB_marks hu1 hp2 hriB
                    have hR3 : regsPreserved stb.pool st3.pool :=
                      regsPreserved_of_except hlen3 hne3 hT3
                    obtain ⟨nli, hnli⟩ := codegenB_ok_entry hc1
                    obtain ⟨mli, hmli, hmlireg, _⟩ := hM1 nli hnli
                    obtain ⟨mli2, hmli2, _, hmli2reg⟩ := hR2.2 li mli hmli
                    have hmli2ne : mli2.reg ≠ 0 := by
                      rw [hmli2reg hmlireg]
                      exact hmlireg
                    obtain ⟨mli3, hmli3, _, hmli3reg⟩ := hR3.2 li mli2 hmli2
                    have hmli3ne : mli3.reg ≠ 0 := by
                      rw [hmli3reg hmli2ne]
                      exact hmli2ne
                    have hliB : ∀ n9, st3.pool[li]? = some n9 → n9.reg ≠ 0 := by
                      intro n9 h9
                      rw [hmli3] at h9
                      injection h9 with h9
                      subst h9
                      exact hmli3ne
                    cases hu2 : useB st3 li with
                    | error e =>
                      intro h
                      simp [hc1, hc2, hu1, hu2, bindE_error, bindE_ok, mapE_error,
                        mapE_ok] at h
                    | ok pr2 =>
                      obtain ⟨st4, r2⟩ := pr2
                      obtain ⟨hp4, hlen4, hne4, hT4⟩ := useB_marks hu2 hp3 hliB
                      have hR4 : regsPreserved st3.pool st4.pool :=
                        regsPreserved_of_except hlen4 hne4 hT4
                      have hRall : regsPreserved st.pool st4.pool :=
                        regsPreserved_trans
                          (regsPreserved_trans (regsPreserved_trans hR1 hR2) hR3) hR4
                      obtain ⟨n4, hn4, hn4alloc, _⟩ := hRall.2 t n hn
                      cases hal : allocB st4 t with
                      | error e =>
                        intro h
                        simp [hc1, hc2, hu1, hu2, hal, bindE_error, bindE_ok,
                          mapE_error, mapE_ok] at h
                      | ok st5 =>
                        obtain ⟨hpoll5, hlen5, hne5, hT5⟩ := allocB_marks hal hp4
                        obtain ⟨m5, hm5, hm5alloc, hm5reg, hm5pin⟩ := hT5 n4 hn4
                        simp only [hc1, hc2, hu1, hu2, hal, bindE_error, bindE_ok,
                          mapE_error, mapE_ok]
                        intro h
                        injection h with h2
                        subst h2
                        refine ⟨pollPos_congr hpoll5 hp4, ⟨?_, ?_⟩, ?_⟩
                        · exact hlen5.trans hRall.1
                        · intro j m hm
                          by_cases hj : j = t
                          · subst hj
                            rw [hn] at hm
                            injection hm with hm
                            subst hm
                            refine ⟨m5, hm5, ?_, fun hrg => absurd hr0 hrg⟩
                            rw [hm5alloc]
                            exact hn4alloc
                          · obtain ⟨m4, hm4, hall4, hreg4⟩ := hRall.2 j m hm
                            exact ⟨m4, (hne5 j hj).trans hm4, hall4, hreg4⟩
                        · intro n0 hn0
                          injection hn0 with hn0
                          subst hn0
                          refine ⟨m5, hm5, hm5reg, ?_⟩
                          intro _ hA
                          refine (hm5pin ?_).trans hn4alloc
                          rw [hn4alloc]
                          exact hA
        | mul =>
          cases hnl : n.l with
          | none => intro h; cases h
          | some li =>
            cases hnr : n.r with
            | none => intro h; cases h
            | some ri =>
              cases hc1 : codegenB fuel st li with
              | error e =>
                intro h
                simp [hc1, bindE_error, bindE_ok, mapE_error, mapE_ok] at h
              | ok st1 =>
                obtain ⟨hp1, hR1, hM1⟩ := ih st li st1 hp hc1
                cases hc2 : codegenB fuel st1 ri with
                | error e =>
                  intro h
                  simp [hc1, hc2, bindE_error, bindE_ok, mapE_error, mapE_ok] at h
                | ok stb =>
                  obtain ⟨hp2, hR2, hM2⟩ := ih st1 ri stb hp1 hc2
                  cases hu1 : useB stb ri with
                  | error e =>
                    intro h
                    simp [hc1, hc2, hu1, bindE_error, bindE_ok, mapE_error,
                      mapE_ok] at h
                  | ok pr1 =>
                    obtain ⟨st3, r1⟩ := pr1
                    obtain ⟨nri, hnri⟩ := codegenB_ok_entry hc2
                    obtain ⟨mri, hmri, hmrireg, _⟩ := hM2 nri hnri
                    have hriB : ∀ n9, stb.pool[ri]? = some n9 → n9.reg ≠ 0 := by
                      intro n9 h9
                      rw [hmri] at h9
                      injection h9 with h9
                      subst h9
                      exact hmrireg
                    obtain ⟨hp3, hlen3, hne3, hT3⟩ := useB_marks hu1 hp2 hriB
                    have hR3 : regsPreserved stb.pool st3.pool :=
                      regsPreserved_of_except hlen3 hne3 hT3
                    obtain ⟨nli, hnli⟩ := codegenB_ok_entry hc1
                    obtain ⟨mli, hmli, hmlireg, _⟩ := hM1 nli hnli
                    obtain ⟨mli2, hmli2, _, hmli2reg⟩ := hR2.2 li mli hmli
                    have hmli2ne : mli2.reg ≠ 0 := by
                      rw [hmli2reg hmlireg]
                      exact hmlireg
                    obtain ⟨mli3, hmli3, _, hmli3reg⟩ := hR3.2 li mli2 hmli2
                    have hmli3ne : mli3.reg ≠ 0 := by
                      rw [hmli3reg hmli2ne]
                      exact hmli2ne
                    have hliB : ∀ n9, st3.pool[li]? = some n9 → n9.reg ≠ 0 := by
                      intro n9 h9
                      rw [hmli3] at h9
                      injection h9 with h9
                      subst h9
                      exact hmli3ne
                    cases hu2 : useB st3 li with
                    | error e =>
                      intro h
                      simp [hc1, hc2, hu1, hu2, bindE_error, bindE_ok, mapE_error,
                        mapE_ok] at h
                    | ok pr2 =>
                      obtain ⟨st4, r2⟩ := pr2
                      obtain ⟨hp4, hlen4, hne4, hT4⟩ := useB_marks hu2 hp3 hliB
                      have hR4 : regsPreserved st3.pool st4.pool :=
                        regsPreserved_of_except hlen4 hne4 hT4
                      have hRall : regsPreserved st.pool st4.pool :=
                        regsPreserved_trans
                          (regsPreserved_trans (regsPreserved_trans hR1 hR2) hR3) hR4
                      obtain ⟨n4, hn4, hn4alloc, _⟩ := hRall.2 t n hn
                      cases hal : allocB st4 t with
                      | error e =>
                        intro h
                        simp [hc1, hc2, hu1, hu2, hal, bindE_error, bindE_ok,
                          mapE_error, mapE_ok] at h
                      | ok st5 =>
                        obtain ⟨hpoll5, hlen5, hne5, hT5⟩ := allocB_marks hal hp4
                        obtain ⟨m5, hm5, hm5alloc, hm5reg, hm5pin⟩ := hT5 n4 hn4
                        simp only [hc1, hc2, hu1, hu2, hal, bindE_error, bindE_ok,
                          mapE_error, mapE_ok]
                        intro h
                        injection h with h2
                        subst h2
                        refine ⟨pollPos_congr hpoll5 hp4, ⟨?_, ?_⟩, ?_⟩
                        · exact hlen5.trans hRall.1
                        · intro j m hm
                          by_cases hj : j = t
                          · subst hj
                            rw [hn] at hm
                            injection hm with hm
                            subst hm
                            refine ⟨m5, hm5, ?_, fun hrg => absurd hr0 hrg⟩
                            rw [hm5alloc]
                            exact hn4alloc
                          · obtain ⟨m4, hm4, hall4, hreg4⟩ := hRall.2 j m hm
                            exact ⟨m4, (hne5 j hj).trans hm4, hall4, hreg4⟩
                        · intro n0 hn0
                          injection hn0 with hn0
                          subst hn0
                          refine ⟨m5, hm5, hm5reg, ?_⟩
                          intro _ hA
                          refine (hm5pin ?_).trans hn4alloc
                          rw [hn4alloc]
                          exact hA

/-- Claim C8.  Register-pool safety of Code Generator B: a register is
never handed out while the free pool is empty — `alloc` on an unpinned
node with the pool exhausted is the fatal "register exhaustion" error
(the C `assert`), never a silent success — and every successful `codegen`
run started with at most pool-size live registers ends with at most
pool-size live registers: `next_free` never exceeds the free-array length,
and that length is preserved. -/
theorem c8_register_pool_safety :
    (∀ (st : BState) (t : Nat) (n : Node), st.pool[t]? = some n →
        n.alloc = 0 → st.regPoll.length ≤ st.nextFree →
        allocB st t = Except.error "register exhaustion") ∧
    (∀ (fuel : Nat) (st : BState) (t : Nat) (st2 : BState),
        st.nextFree ≤ st.regPoll.length →
        codegenB fuel st t = Except.ok st2 →
        st2.nextFree ≤ st2.regPoll.length ∧
        st2.regPoll.length = st.regPoll.length) := by
  constructor
  · intro st t n hn ha hfull
    unfold allocB
    rw [hn]
    simp only []
    rw [if_neg (by simp [ha]), if_neg (not_lt.mpr hfull)]
  · exact codegenB_invariant

/-- Claim C7 (amended).  Node reuse and result placement.  Code Generator B
compiles every pool node at most once per compilation: a call on a node
whose `reg` is already set returns the state unchanged, emitting nothing;
every successful call preserves the pool discipline (`regsPreserved`:
entries persist, `alloc` is never rewritten, an assigned register is kept
forever) and leaves the compiled node with a nonzero `reg` — equal to its
pinned `alloc` register when it was still uncompiled, so the root, which
`main` pins to a0, is compiled into a0 — whence every later call on an
already-compiled node is a no-op.  Code Generator A re-emits a
materialised binary node (`saved` slot set) as exactly one cache-slot
reload; its leaves are re-emitted per reference (the counterexample), so
its "at most once" covers only binary nodes.  Concretely, compiling
"(x+y)*(x+y)" — whose shared subtree x+y is referenced by two edges —
Generator B emits exactly four instructions, the shared Add once and the
final `mul` writing a0, and both pipelines leave the tree-walking value 25
in the designated return location: a0 for `runB`, eax for `runA`. -/
theorem c7_reuse_amended (fuel : Nat) (st : BState) (t : Nat) (n : Node)
    (fuelx : Nat) (stx : AState) (tx : Nat) (nx : NodeX) (s : Nat)
    (hn : st.pool[t]? = some n) (hp : pollPos st)
    (hnx : stx.pool[tx]? = some nx)
    (hk : nx.kind = Kind.add ∨ nx.kind = Kind.mul)
    (hs : nx.saved = some s) :
    (n.reg ≠ 0 → codegenB (fuel + 1) st t = Except.ok st) ∧
    (∀ st2, codegenB fuel st t = Except.ok st2 →
      regsPreserved st.pool st2.pool ∧
      (∃ m2, st2.pool[t]? = some m2 ∧ m2.reg ≠ 0 ∧
        (n.reg = 0 → n.alloc ≠ 0 → m2.reg = n.alloc)) ∧
      ∀ fuel2, codegenB (fuel2 + 1) st2 t = Except.ok st2) ∧
    codegenA (fuelx + 1) stx tx = some (emitA stx [InstrA.movFromSlot s]) ∧
    (codegenB 99 ⟨pinRoot (parseRV "(x+y)*(x+y)").pool 3, regPoll0, 0, []⟩
        3).toOption.map (fun s2 => s2.code) =
      some [InstrB.lw 5 reg_a0 480, InstrB.lw 6 reg_a0 484,
        InstrB.add 7 5 6, InstrB.mul reg_a0 7 7] ∧
    runB "(x+y)*(x+y)" env0 = some 25 ∧
    (codegenA 99 ⟨(parseX "(x+y)*(x+y)").pool, 0, []⟩ 3).map
        (fun s2 => (s2.code.count InstrA.addBA,
          s2.code.count (InstrA.movFromSlot 0))) = some (1, 1) ∧
    runA "(x+y)*(x+y)" env0 = some 25 ∧
    runEval "(x+y)*(x+y)" env0 = some 25 := by
  refine ⟨?_, ?_, ?_, ?_, ?_, ?_, ?_, ?_⟩
  · intro hr
    rw [codegenB, hn]
    simp only []
    rw [if_pos hr]
  · intro st2 hok
    obtain ⟨hp2, hR, hM⟩ := codegenB_marks fuel st t st2 hp hok
    obtain ⟨m2, hm2, hm2r, hm2pin⟩ := hM n hn
    refine ⟨hR, ⟨m2, hm2, hm2r, hm2pin⟩, ?_⟩
    intro fuel2
    rw [codegenB, hm2]
    simp only []
    rw [if_pos hm2r]
  · rw [codegenA, hnx]
    simp only []
    rcases hk with hk | hk <;>
      · rw [hk]
        simp only []
        rw [hs]
  · rfl
  · rfl
  · rfl
  · rfl
  · rfl

/-- Witness for C7: an already-compiled node for Generator B, a
materialised Add node for Generator A, and the concrete pipeline facts. -/
theorem c7_reuse_amended_witness :
    (c7nB.reg ≠ 0 → codegenB (0 + 1) c7stB 0 = Except.ok c7stB) ∧
    (∀ st2, codegenB 0 c7stB 0 = Except.ok st2 →
      regsPreserved c7stB.pool st2.pool ∧
      (∃ m2, st2.pool[0]? = some m2 ∧ m2.reg ≠ 0 ∧
        (c7nB.reg = 0 → c7nB.alloc ≠ 0 → m2.reg = c7nB.alloc)) ∧
      ∀ fuel2, codegenB (fuel2 + 1) st2 0 = Except.ok st2) ∧
    codegenA (0 + 1) c7stA 0 = some (emitA c7stA [InstrA.movFromSlot 3]) ∧
    (codegenB 99 ⟨pinRoot (parseRV "(x+y)*(x+y)").pool 3, regPoll0, 0, []⟩
        3).toOption.map (fun s2 => s2.code) =
      some [InstrB.lw 5 reg_a0 480, InstrB.lw 6 reg_a0 484,
        InstrB.add 7 5 6, InstrB.mul reg_a0 7 7] ∧
    runB "(x+y)*(x+y)" env0 = some 25 ∧
    (codegenA 99 ⟨(parseX "(x+y)*(x+y)").pool, 0, []⟩ 3).map
        (fun s2 => (s2.code.count InstrA.addBA,
          s2.code.count (InstrA.movFromSlot 0))) = some (1, 1) ∧
    runA "(x+y)*(x+y)" env0 = some 25 ∧
    runEval "(x+y)*(x+y)" env0 = some 25 :=
  c7_reuse_amended 0 c7stB 0 c7nB 0 c7stA 0 c7nA 3 rfl
    (by unfold pollPos; decide) rfl (Or.inl rfl) rfl

/-- Claim C2 (amended).  On an intern hit — the canonicalized
`(kind, left, right, value)` tuple's first match in the pool is entry `j` —
the RISC-V `mk` returns entry `j` with its share count incremented, hence
at least 2 in a well-formed pool, and appends nothing (the pool length is
unchanged).  The x86 `mk` also returns the matching entry and appends
nothing, but executes `p->shared = 1`: the flag is set to 1, not
incremented, so it never reaches 2. -/
theorem c2_intern_hit_amended (fuel : Nat) (p : Pool) (kind : Kind)
    (l r : Option Nat) (k : Int) (j : Nat) (px : PoolX) (kx : Kind)
    (lx rx : Option Nat) (vx : Int) (jx : Nat)
    (hfm : firstMatch
      (matchNode kind (canonL p kind l r) (canonR p kind l r) k) p = some j)
    (hwf : wf p = true)
    (hfmx : firstMatchX
      (matchNodeX kx (canonLX px kx lx rx) (canonRX px kx lx rx) vx) px = some jx) :
    mk (fuel + 1) p kind l r k = some (bumpShared p j, j) ∧
    (bumpShared p j).length = p.length ∧
    sharedAt (bumpShared p j) j = sharedAt p j + 1 ∧
    2 ≤ sharedAt (bumpShared p j) j ∧
    mkX (fuel + 1) px kx lx rx vx = some (setSharedX px jx, jx) ∧
    (setSharedX px jx).length = px.length ∧
    sharedAtX (setSharedX px jx) jx = 1 := by
  obtain ⟨n, hn, hq⟩ := firstMatch_some hfm
  obtain ⟨nx, hnx, hqx⟩ := firstMatchX_some hfmx
  refine ⟨?_, bumpShared_length p j, ?_, ?_, ?_, setSharedX_length px jx, ?_⟩
  · conv_lhs => rw [mk]
    simp only [hfm]
  · simp [sharedAt, bumpShared_getElem, hn]
  · have h1 := wf_sharedPos hwf hn
    have h2 : sharedAt p j = n.shared := by simp [sharedAt, hn]
    have h3 : sharedAt (bumpShared p j) j = n.shared + 1 := by
      simp [sharedAt, bumpShared_getElem, hn]
    omega
  · conv_lhs => rw [mkX]
    simp only [hfmx]
  · simp [sharedAtX, setSharedX_getElem, hnx]

/-- Witness for C2: the tuple of "x+1" interned once more, in both
variants. -/
theorem c2_intern_hit_amended_witness :
    mk 10 (parseRV "x+1").pool Kind.add (some 0) (some 1) 0 =
      some (bumpShared (parseRV "x+1").pool 2, 2) ∧
    (bumpShared (parseRV "x+1").pool 2).length = (parseRV "x+1").pool.length ∧
    sharedAt (bumpShared (parseRV "x+1").pool 2) 2 =
      sharedAt (parseRV "x+1").pool 2 + 1 ∧
    2 ≤ sharedAt (bumpShared (parseRV "x+1").pool 2) 2 ∧
    mkX 10 c2p1 Kind.add (some 0) (some 1) 0 = some (setSharedX c2p1 2, 2) ∧
    (setSharedX c2p1 2).length = c2p1.length ∧
    sharedAtX (setSharedX c2p1 2) 2 = 1 :=
  c2_intern_hit_amended 9 (parseRV "x+1").pool Kind.add (some 0) (some 1) 0 2
    c2p1 Kind.add (some 0) (some 1) 0 2 (by rfl) (by rfl) (by rfl)

end Expjit
